/-
Verification of the homebase_setup fleet gateway core (server/src/index_ws.ts)
against its natural-language specification.

The TypeScript source is shallowly embedded: each JS data structure becomes a
Lean structure, each relevant method becomes a pure Lean function from state to
state plus a list of observable outputs (broadcasts, sends, promise
resolutions).  JS `Map` objects are modelled as insertion-ordered association
lists, JS numbers in the numeric claims as rationals, and `Math.random()` as a
rational parameter in [0, 1).
-/
import Mathlib

/-! ## JS Map model (string keys) -/

/-- `Map.get` on a string-keyed JS map, modelled as an association list
(keys are unique, so first-match lookup is `Map.get`). -/
def mapGet : List (String × String) → String → Option String
  | [], _ => none
  | (k', v) :: rest, k => if k' == k then some v else mapGet rest k

/-- `Map.set`: replace the binding if the key is present, else append. -/
def mapSet : List (String × String) → String → String → List (String × String)
  | [], k, v => [(k, v)]
  | (k', v') :: rest, k, v =>
    if k' == k then (k, v) :: rest else (k', v') :: mapSet rest k v

/-! ## Status cache and snapshot (index_ws.ts lines 131-148, 602-648, 1334-1373) -/

/-- The `StatusChanges` interface: one snapshot entry / broadcast payload. -/
structure StatusChanges where
  host : String
  status_source : String
  status_type : String
  status_value : String
  sys_time : String
  deriving Repr, DecidableEq

/-- Process-wide mutable state touched by `updateLocalStatusAndBroadcast`:
the snapshot array `statusData` and the Link's `lastValues` cache. -/
structure StatusState where
  statusData : List StatusChanges
  lastValues : List (String × String)
  deriving Repr, DecidableEq

/-- The cache key `` `${host}|${status_source}|${status_type}` ``. -/
def statusKey (host src ty : String) : String :=
  host ++ "|" ++ src ++ "|" ++ ty

/-- Key components that do not contain the separator char. -/
def barFree (s : String) : Prop := '|' ∉ s.data

instance (s : String) : Decidable (barFree s) := by
  unfold barFree; infer_instance

/-- `HomebaseWS.updateLocalStatusAndBroadcast` (lines 602-648).  The
`status_value` argument is taken already string-normalized (the source first
maps a numeric value through `String(...)`).  Returns the new state together
with the list of `status_changes` broadcasts performed (empty or singleton);
the source's boolean result is `broadcasts ≠ []`. -/
def updateLocalStatusAndBroadcast (st : StatusState)
    (host src ty newVal nowIso : String) : StatusState × List StatusChanges :=
  let key := statusKey host src ty
  if mapGet st.lastValues key == some newVal then
    (st, [])
  else
    let lastValues' := mapSet st.lastValues key newVal
    let payload : StatusChanges :=
      { host := host, status_source := src, status_type := ty,
        status_value := newVal, sys_time := nowIso }
    match st.statusData.findIdx?
        (fun e => e.host == host && e.status_type == ty && e.status_source == src) with
    | some idx =>
        if (st.statusData.getD idx payload).status_value != newVal then
          ({ statusData := st.statusData.set idx payload, lastValues := lastValues' },
           [payload])
        else
          ({ st with lastValues := lastValues' }, [])
    | none =>
        ({ statusData := st.statusData ++ [payload], lastValues := lastValues' },
         [payload])

/-- First-match replacement form of the snapshot update: extensionally the
`findIndex` / `set` / `push` dance of the source on the `statusData` array.
Returns the new array and whether a change was recorded. -/
def applyStatus (p : StatusChanges) : List StatusChanges → List StatusChanges × Bool
  | [] => ([p], true)
  | e :: rest =>
    if e.host == p.host && e.status_type == p.status_type && e.status_source == p.status_source then
      if e.status_value != p.status_value then (p :: rest, true) else (e :: rest, false)
    else
      let r := applyStatus p rest
      (e :: r.1, r.2)

/-- `handleStatusChanges` → `handleNotification` for the `status_changes`
channel (lines 1334-1373): broadcast unconditionally, then match the snapshot
entry on `(host, status_type)` only and replace it, or push the payload. -/
def handleNotificationStatus (payload : StatusChanges) (dataStore : List StatusChanges) :
    List StatusChanges × List StatusChanges :=
  let broadcasts := [payload]
  match dataStore.findIdx?
      (fun e => e.host == payload.host && e.status_type == payload.status_type) with
  | some idx => (dataStore.set idx payload, broadcasts)
  | none => (dataStore ++ [payload], broadcasts)

/-- The two kinds of accepted status updates named by the spec's snapshot
invariant: a Homebase-Link update and a `status_changes` DB notification. -/
inductive StatusEvent where
  | link (host src ty newVal nowIso : String)
  | note (payload : StatusChanges)
  deriving Repr, DecidableEq

def statusStep (st : StatusState) : StatusEvent → StatusState
  | .link h s t v now => (updateLocalStatusAndBroadcast st h s t v now).1
  | .note p => { st with statusData := (handleNotificationStatus p st.statusData).1 }

def statusRun (st : StatusState) (evs : List StatusEvent) : StatusState :=
  evs.foldl statusStep st

/-- At most one snapshot entry per `(host, source, type)` triple. -/
def uniquePerKey (l : List StatusChanges) : Prop :=
  l.Pairwise (fun a b =>
    ¬(a.host = b.host ∧ a.status_source = b.status_source ∧ a.status_type = b.status_type))

/-- Every snapshot entry's value equals the cached last value for its key. -/
def cacheAgrees (st : StatusState) : Prop :=
  ∀ e ∈ st.statusData,
    mapGet st.lastValues (statusKey e.host e.status_source e.status_type) = some e.status_value

instance (l : List StatusChanges) : Decidable (uniquePerKey l) := by
  unfold uniquePerKey; exact List.instDecidablePairwise l

instance (st : StatusState) : Decidable (cacheAgrees st) := by
  unfold cacheAgrees; infer_instance

/-- All key components of a link event are separator-free. -/
def eventBarFree : StatusEvent → Prop
  | .link h s t _ _ => barFree h ∧ barFree s ∧ barFree t
  | .note p => barFree p.host ∧ barFree p.status_source ∧ barFree p.status_type

/-- All snapshot entries have separator-free key components. -/
def entriesBarFree (l : List StatusChanges) : Prop :=
  ∀ e ∈ l, barFree e.host ∧ barFree e.status_source ∧ barFree e.status_type

/-- Number of value changes in a sequence of updates relative to a running
cached value (consecutive duplicates suppressed). -/
def valueChanges : Option String → List String → Nat
  | _, [] => 0
  | c, v :: rest => (if c = some v then 0 else 1) + valueChanges (some v) rest

/-- Fold a sequence of same-key updates through
`updateLocalStatusAndBroadcast`, counting emitted broadcasts. -/
def runKeyUpdates (h s t : String) (st : StatusState) :
    List (String × String) → StatusState × Nat
  | [] => (st, 0)
  | (v, now) :: rest =>
    let r := updateLocalStatusAndBroadcast st h s t v now
    let r' := runKeyUpdates h s t r.1 rest
    (r'.1, r.2.length + r'.2)

/-- The state is consistent at one key: the cache entry and the first snapshot
entry matching the triple exist together and carry the same value. -/
def consistentAtKey (st : StatusState) (h s t : String) : Prop :=
  match mapGet st.lastValues (statusKey h s t) with
  | none =>
      st.statusData.findIdx?
        (fun e => e.host == h && e.status_type == t && e.status_source == s) = none
  | some c =>
      ∃ i now, st.statusData.findIdx?
          (fun e => e.host == h && e.status_type == t && e.status_source == s) = some i ∧
        st.statusData.get? i = some
          { host := h, status_source := s, status_type := t,
            status_value := c, sys_time := now }

/-! ## Homebase Link request machinery (index_ws.ts lines 170-224, 362-398, 703-764) -/

def maxQueueSize : Nat := 200
def maxInFlight : Nat := 8

/-- One entry of `evalQueue`: the script, its timeout budget, and the caller's
promise identity (`callRef` stands for the resolve/reject continuation pair). -/
structure EvalJob where
  script : String
  timeoutMs : Nat
  callRef : Nat
  deriving Repr, DecidableEq

/-- One entry of `requestMap`: requestId together with the continuation it will
complete and the script (used by the timeout message). -/
structure PendingEntry where
  rid : Nat
  callRef : Nat
  script : String
  deriving Repr, DecidableEq

/-- Per-Link request state.  Request ids are modelled as consecutive naturals
(`genRequestId` produces fresh unique strings; only freshness matters). -/
structure LinkState where
  wsOpen : Bool
  requestMap : List PendingEntry
  currentInFlight : Nat
  evalQueue : List EvalJob
  nextId : Nat
  deriving Repr, DecidableEq

def linkInit : LinkState :=
  { wsOpen := false, requestMap := [], currentInFlight := 0, evalQueue := [], nextId := 0 }

/-- A frame sent to one browser socket. -/
structure BrowserFrame where
  type_ : String
  data : String
  deriving Repr, DecidableEq

/-- Observable effects of the Link machinery. -/
inductive LinkOutput where
  /-- `send({cmd:'eval', script, requestId})` to the homebase socket. -/
  | sent (rid : Nat) (script : String)
  /-- the promise identified by `callRef` resolved with the frame's result. -/
  | resolved (callRef : Nat) (result : Option String)
  /-- the promise identified by `callRef` rejected with an error message. -/
  | rejected (callRef : Nat) (errMsg : String)
  /-- a frame sent to browser socket number `i` by `safeBroadcast`. -/
  | browserSend (i : Nat) (frame : BrowserFrame)
  /-- a datapoint frame handed to `processDatapointForLogging`. -/
  | datapointEvt (name data : String)
  deriving Repr, DecidableEq

/-- `safeBroadcast` (lines 790-801): send `{type, data}` to every browser
socket whose `readyState` is OPEN; sockets are modelled by their open flag. -/
def safeBroadcastGo (eventType msg : String) : Nat → List Bool → List LinkOutput
  | _, [] => []
  | i, isOpen :: rest =>
    (if isOpen then [LinkOutput.browserSend i ⟨eventType, msg⟩] else []) ++
      safeBroadcastGo eventType msg (i + 1) rest

def safeBroadcast (sockets : List Bool) (eventType msg : String) : List LinkOutput :=
  safeBroadcastGo eventType msg 0 sockets

/-- `tryDrainQueue` (lines 742-764): while there is in-flight capacity and the
queue is non-empty, shift a job, register it in `requestMap`, bump the
in-flight count, and send it.  The while loop is driven by fuel bounded by the
queue length. -/
def drainAux : Nat → LinkState → LinkState × List LinkOutput
  | 0, st => (st, [])
  | fuel + 1, st =>
    if st.currentInFlight < maxInFlight then
      match st.evalQueue with
      | [] => (st, [])
      | job :: rest =>
        let rid := st.nextId
        let st' : LinkState :=
          { st with evalQueue := rest,
                    requestMap := st.requestMap ++ [⟨rid, job.callRef, job.script⟩],
                    currentInFlight := st.currentInFlight + 1,
                    nextId := rid + 1 }
        let r := drainAux fuel st'
        (r.1, LinkOutput.sent rid job.script :: r.2)
    else (st, [])

def tryDrainQueue (st : LinkState) : LinkState × List LinkOutput :=
  if st.wsOpen then drainAux st.evalQueue.length st else (st, [])

/-- `HomebaseWS.eval` (lines 703-740).  If the socket is open and there is
in-flight capacity, send immediately; otherwise reject synchronously when the
queue is full, else enqueue and try to drain. -/
def evalCall (st : LinkState) (script : String) (timeoutMs : Nat) (callRef : Nat) :
    LinkState × List LinkOutput :=
  if st.wsOpen && decide (st.currentInFlight < maxInFlight) then
    let rid := st.nextId
    ({ st with requestMap := st.requestMap ++ [⟨rid, callRef, script⟩],
               currentInFlight := st.currentInFlight + 1,
               nextId := rid + 1 },
     [LinkOutput.sent rid script])
  else if st.evalQueue.length ≥ maxQueueSize then
    (st, [LinkOutput.rejected callRef "Request queue full"])
  else
    tryDrainQueue { st with evalQueue := st.evalQueue ++ [⟨script, timeoutMs, callRef⟩] }

/-- A request timeout firing (the `setTimeout` bodies in `eval` and
`tryDrainQueue`): if the id is still pending, remove it, free the slot, reject
with the timeout message, and drain. -/
def timeoutFire (st : LinkState) (rid : Nat) : LinkState × List LinkOutput :=
  match st.requestMap.find? (fun p => p.rid == rid) with
  | none => (st, [])
  | some pending =>
    let st' : LinkState :=
      { st with requestMap := st.requestMap.filter (fun p => p.rid != rid),
                currentInFlight := st.currentInFlight - 1 }
    let r := tryDrainQueue st'
    (r.1, LinkOutput.rejected pending.callRef ("Request timed out: " ++ pending.script) :: r.2)

/-- An inbound JSON frame from the homebase, as `handleMessage` inspects it. -/
structure HbMessage where
  requestId : Option Nat
  status : Option String
  result : Option String
  error : Option String
  action : Option String
  msgType : Option String
  name : Option String
  data : Option String
  deriving Repr, DecidableEq

/-- JS truthiness of an optional string field. -/
def truthyStr : Option String → Bool
  | none => false
  | some s => s != ""

/-- `HomebaseWS.handleMessage` (lines 362-398). -/
def handleMessage (sockets : List Bool) (st : LinkState) (msg : HbMessage) :
    LinkState × List LinkOutput :=
  match msg.requestId with
  | some rid =>
    match st.requestMap.find? (fun p => p.rid == rid) with
    | some pending =>
      let st' : LinkState :=
        { st with requestMap := st.requestMap.filter (fun p => p.rid != rid),
                  currentInFlight := st.currentInFlight - 1 }
      let drained := tryDrainQueue st'
      if msg.status == some "ok" then
        (drained.1, drained.2 ++ [LinkOutput.resolved pending.callRef msg.result])
      else
        let errMsg := match msg.error with
          | some e => if e == "" then "Command failed" else e
          | none => "Command failed"
        let tcl := match msg.error with
          | some e => safeBroadcast sockets "TCL_ERROR" e
          | none => []
        (drained.1, drained.2 ++ [LinkOutput.rejected pending.callRef errMsg] ++ tcl)
    | none => handleMessageRest st msg
  | none => handleMessageRest st msg
where
  /-- the non-response branches of `handleMessage`. -/
  handleMessageRest (st : LinkState) (msg : HbMessage) : LinkState × List LinkOutput :=
    if msg.msgType == some "datapoint" then
      (st, [LinkOutput.datapointEvt (msg.name.getD "") (msg.data.getD "")])
    else if truthyStr msg.status || truthyStr msg.action then
      (st, [])
    else
      (st, [])

/-- Events driving one Link's request machinery. -/
inductive LinkEvent where
  | evalReq (script : String) (timeoutMs : Nat) (callRef : Nat)
  | msgIn (msg : HbMessage)
  | timerFire (rid : Nat)
  /-- the `open` handler (lines 260-279): sets the socket open; it does *not*
  touch the request map, the queue, or the in-flight count. -/
  | sockOpen
  /-- the `close` handler (lines 325-342): the socket is gone; pending
  requests and the queue are left to their timeouts. -/
  | sockClose
  deriving Repr, DecidableEq

def linkStep (sockets : List Bool) (st : LinkState) : LinkEvent → LinkState × List LinkOutput
  | .evalReq script t cref => evalCall st script t cref
  | .msgIn msg => handleMessage sockets st msg
  | .timerFire rid => timeoutFire st rid
  | .sockOpen => ({ st with wsOpen := true }, [])
  | .sockClose => ({ st with wsOpen := false }, [])

def linkRun (sockets : List Bool) (st : LinkState) : List LinkEvent → LinkState
  | [] => st
  | ev :: rest => linkRun sockets (linkStep sockets st ev).1 rest

/-- The Link resource invariant: the in-flight counter mirrors the pending
table, both caps hold, and pending request ids are fresh and distinct. -/
def linkInv (st : LinkState) : Prop :=
  st.currentInFlight = st.requestMap.length ∧
  st.requestMap.length ≤ maxInFlight ∧
  st.evalQueue.length ≤ maxQueueSize ∧
  (st.requestMap.map (fun p => p.rid)).Nodup ∧
  ∀ p ∈ st.requestMap, p.rid < st.nextId

instance (st : LinkState) : Decidable (linkInv st) := by
  unfold linkInv; infer_instance

/-! ## Reconnect back-off (index_ws.ts lines 189-204, 260-279, 650-681) -/

def fastRetryWindowMs : Nat := 5 * 60 * 1000
def fastRetryBaseMs : Nat := 2000
def fastRetryJitterMs : Nat := 1000
def slowBaseBackoffMs : Nat := 15000
def slowMaxBackoffMs : Nat := 120000
def slowJitterMs : Nat := 2000

structure ReconnectState where
  reconnectAttempts : Nat
  consecutiveFailures : Nat
  firstDisconnectAtMs : Option Nat
  slowPhaseStartFailures : Option Nat
  deriving Repr, DecidableEq

/-- `Math.floor(r * j)` for a `Math.random()` draw `r ∈ [0, 1)`. -/
def jitterOf (r : ℚ) (j : Nat) : Nat := (⌊r * (j : ℚ)⌋).toNat

/-- `HomebaseWS.scheduleReconnect` (lines 650-681): bump the failure counters,
record the first disconnect time, then compute the delay for the current
phase.  `now` is `Date.now()`, `r` the `Math.random()` draw. -/
def scheduleReconnect (st : ReconnectState) (now : Nat) (r : ℚ) :
    ReconnectState × Nat :=
  let st1 : ReconnectState :=
    { st with reconnectAttempts := st.reconnectAttempts + 1,
              consecutiveFailures := st.consecutiveFailures + 1 }
  let firstAt := st1.firstDisconnectAtMs.getD now
  let st2 := { st1 with firstDisconnectAtMs := some firstAt }
  let elapsed := now - firstAt
  if elapsed < fastRetryWindowMs then
    (st2, fastRetryBaseMs + jitterOf r fastRetryJitterMs)
  else
    let startF := st2.slowPhaseStartFailures.getD st2.consecutiveFailures
    let st3 := { st2 with slowPhaseStartFailures := some startF }
    let slowFailures := st3.consecutiveFailures - startF
    let backoff := min slowMaxBackoffMs (slowBaseBackoffMs * 2 ^ slowFailures)
    (st3, backoff + jitterOf r slowJitterMs)

/-- The `open` handler's counter resets (lines 267-270). -/
def openResetReconnect (_st : ReconnectState) : ReconnectState :=
  { reconnectAttempts := 0, consecutiveFailures := 0,
    firstDisconnectAtMs := none, slowPhaseStartFailures := none }

/-! ## Chunked message reassembly (index_ws.ts lines 186-188, 292-318) -/

def maxChunkTotal : Nat := 2000

structure ChunkFrame where
  messageId : String
  chunkIndex : Nat
  totalChunks : Nat
  data : String
  deriving Repr, DecidableEq

structure ChunkBuf where
  chunks : List String
  total : Nat
  deriving Repr, DecidableEq

/-- JS sparse-array assignment `chunks[i] = v`: in range it sets the slot;
past the end it extends the array, the intervening holes behaving as `""`
under both `filter` and `join`. -/
def listSetPad (l : List String) (i : Nat) (v : String) : List String :=
  if i < l.length then l.set i v
  else l ++ List.replicate (i - l.length) "" ++ [v]

def bufGet (m : List (String × ChunkBuf)) (k : String) : Option ChunkBuf :=
  (m.find? (fun p => p.1 == k)).map (fun p => p.2)

def bufSet (m : List (String × ChunkBuf)) (k : String) (v : ChunkBuf) :
    List (String × ChunkBuf) :=
  if m.any (fun p => p.1 == k) then
    m.map (fun p => if p.1 == k then (k, v) else p)
  else m ++ [(k, v)]

def bufDelete (m : List (String × ChunkBuf)) (k : String) : List (String × ChunkBuf) :=
  m.filter (fun p => p.1 != k)

/-- The chunked-message branch of the `message` handler (lines 292-318).
Returns the updated `chunkBuffers` and, when a buffer completed, the joined
text that the source then `JSON.parse`s and feeds back to `handleMessage`.
`totalChunks` is modelled as a natural; the source guard
`!Number.isFinite(t) || t <= 0 || t > 2000` becomes `t = 0 ∨ t > 2000`. -/
def processChunk (bufs : List (String × ChunkBuf)) (f : ChunkFrame) :
    List (String × ChunkBuf) × Option String :=
  if f.totalChunks == 0 || decide (f.totalChunks > maxChunkTotal) then (bufs, none)
  else
    let bufs0 := if (bufGet bufs f.messageId).isSome then bufs
      else bufSet bufs f.messageId ⟨List.replicate f.totalChunks "", f.totalChunks⟩
    let entry := (bufGet bufs0 f.messageId).getD ⟨[], 0⟩
    let chunks' := listSetPad entry.chunks f.chunkIndex f.data
    let received := (chunks'.filter (fun c => c != "")).length
    if received == entry.total then
      (bufDelete bufs0 f.messageId, some (String.join chunks'))
    else
      (bufSet bufs0 f.messageId ⟨chunks', entry.total⟩, none)

/-- Process a list of chunk frames, collecting the reassembled texts. -/
def runChunks (bufs : List (String × ChunkBuf)) :
    List ChunkFrame → List (String × ChunkBuf) × List String
  | [] => (bufs, [])
  | f :: rest =>
    let r := processChunk bufs f
    let r' := runChunks r.1 rest
    (r'.1, r.2.toList ++ r'.2)

/-! ## Datapoint translator (index_ws.ts lines 400-444) -/

/-- Value of a digit string. -/
def digitsVal (cs : List Char) : Nat :=
  cs.foldl (fun a c => 10 * a + (c.toNat - Char.toNat '0')) 0

/-- JS `Number(string)` on decimal string literals, as a rational; `none` is
`NaN`.  Whitespace is trimmed, the empty string is `0`, and an optionally
signed decimal literal with optional fraction and exponent is accepted.
(Non-decimal forms such as `0x…` or `Infinity` are outside the model and map
to `none`.) -/
def jsNumber (s : String) : Option ℚ :=
  let cs := ((s.data.dropWhile Char.isWhitespace).reverse.dropWhile
    Char.isWhitespace).reverse
  if cs = [] then some 0 else
  let signAndRest : ℚ × List Char :=
    match cs with
    | '-' :: rest => (-1, rest)
    | '+' :: rest => (1, rest)
    | _ => (1, cs)
  let sign := signAndRest.1
  let cs1 := signAndRest.2
  let intDigits := cs1.takeWhile Char.isDigit
  let cs2 := cs1.dropWhile Char.isDigit
  let fracAndRest : List Char × List Char :=
    match cs2 with
    | '.' :: rest => (rest.takeWhile Char.isDigit, rest.dropWhile Char.isDigit)
    | _ => ([], cs2)
  let fracDigits := fracAndRest.1
  let cs3 := fracAndRest.2
  if intDigits = [] ∧ fracDigits = [] then none else
  let expParsed : Bool × Int × List Char :=
    match cs3 with
    | 'e' :: rest | 'E' :: rest =>
      let esignAndRest : Int × List Char :=
        match rest with
        | '-' :: r => (-1, r)
        | '+' :: r => (1, r)
        | _ => (1, rest)
      let eds := esignAndRest.2.takeWhile Char.isDigit
      if eds = [] then (false, 0, esignAndRest.2)
      else (true, esignAndRest.1 * (digitsVal eds : Int),
            esignAndRest.2.dropWhile Char.isDigit)
    | _ => (true, 0, cs3)
  if ¬expParsed.1 ∨ expParsed.2.2 ≠ [] then none else
  let mantissa : ℚ :=
    (digitsVal intDigits : ℚ) + (digitsVal fracDigits : ℚ) / ((10 : ℚ) ^ fracDigits.length)
  some (sign * mantissa * (10 : ℚ) ^ expParsed.2.1)

/-- `Number(value) || 0`: NaN (and 0 itself) collapse to 0. -/
def obsCoerce (v : String) : ℚ := (jsNumber v).getD 0

inductive StatusVal where
  | str (s : String)
  | num (q : ℚ)
  deriving Repr, DecidableEq

structure Translated where
  status_source : String
  status_type : String
  status_value : StatusVal
  deriving Repr, DecidableEq

/-- JS `name.toLowerCase()`, modelled per character on the char list. -/
def jsToLower (s : String) : String := ⟨s.data.map Char.toLower⟩

/-- The `(source, type, value)` computation of
`processDatapointForLogging` (lines 400-433).  JS string operations
(`toLowerCase`, `startsWith`, `slice`, `indexOf`) are modelled on the
underlying char lists. -/
def processDatapointTranslate (name value : String) : Translated :=
  let lowerName := jsToLower name
  if lowerName == "@keys" then
    ⟨"system", "@keys", .str value⟩
  else if "ess/git/".data.isPrefixOf lowerName.data then
    ⟨"git", (name.data.drop 8).asString, .str value⟩
  else if lowerName == "ess/obs_active" then
    ⟨"ess", "in_obs", .num (obsCoerce value)⟩
  else if lowerName == "ess/in_obs" then
    ⟨"ess", "in_obs", .num (obsCoerce value)⟩
  else
    match name.data.findIdx? (fun c => c == '/') with
    | some i =>
      if i > 0 then
        ⟨(name.data.take i).asString, (name.data.drop (i + 1)).asString, .str value⟩
      else
        ⟨"system", name, .str value⟩
    | none => ⟨"system", name, .str value⟩

/-! ## Perf-stats notifications (index_ws.ts lines 150-164, 1334-1365, 1450-1461) -/

/-- The `RecentStatsChanges` interface. -/
structure RecentStatsChanges where
  status_type : String
  host : String
  subject : String
  project : String
  state_system : String
  protocol : String
  variant : String
  aborts : ℚ
  pc : ℚ
  rt : ℚ
  trials : ℚ
  last_updated : String
  deriving Repr, DecidableEq

/-- `handleNotification` (lines 1334-1359) instantiated at
`RecentStatsChanges` payloads (where the `isRecentStatsChanges` type guard
holds).  Returns the updated store and the broadcasts performed. -/
def handleNotificationStats (payload : RecentStatsChanges)
    (dataStore : List RecentStatsChanges) (deleteOnZeroTrials : Bool) :
    List RecentStatsChanges × List RecentStatsChanges :=
  let broadcasts := [payload]
  let idx := dataStore.findIdx? (fun e =>
    e.host == payload.host && e.status_type == payload.status_type &&
    e.subject == payload.subject && e.state_system == payload.state_system &&
    e.protocol == payload.protocol && e.variant == payload.variant)
  if deleteOnZeroTrials && payload.trials == 0 then
    (match idx with
     | some i => dataStore.eraseIdx i
     | none => dataStore, broadcasts)
  else
    (match idx with
     | some i => dataStore.set i payload
     | none => dataStore ++ [payload], broadcasts)

/-- `handleRecentStatsChanges` (lines 1450-1461): the source passes `false`
as `deleteOnZeroTrials` (the literal marked `// Enable delete on zero
trials`). -/
def handleRecentStatsChanges (payload : RecentStatsChanges)
    (dataStore : List RecentStatsChanges) :
    List RecentStatsChanges × List RecentStatsChanges :=
  handleNotificationStats payload dataStore false

/-! ## Reachability probing (index_ws.ts lines 1520-1596) -/

structure PingResult where
  success : Bool
  time : Option ℚ
  deriving Repr, DecidableEq

/-- JS `Math.round`: nearest integer, ties toward `+∞`. -/
def jsRound (q : ℚ) : ℤ := ⌊q + 1 / 2⌋

/-- `parseFloat(x.toFixed(2))` for non-negative `x`: two-decimal rounding,
ties up. -/
def roundTo2 (q : ℚ) : ℚ := ((⌊q * 100 + 1 / 2⌋ : ℤ) : ℚ) / 100

structure PingStats where
  avgTime : ℤ
  successRate : ℚ
  deriving Repr, DecidableEq

/-- `calculatePingStats` (lines 1525-1530). -/
def calculatePingStats (pings : List PingResult) : PingStats :=
  let successful := pings.filter (fun p => p.success && p.time.isSome)
  let avgTime : ℤ :=
    if successful.length ≠ 0 then
      jsRound ((successful.map (fun p => p.time.getD 0)).sum / (successful.length : ℚ))
    else 0
  let successRate : ℚ :=
    if pings.length ≠ 0 then roundTo2 ((successful.length : ℚ) / (pings.length : ℚ))
    else 0
  ⟨avgTime, successRate⟩

/-- One probe cycle's window maintenance for one device (lines 1570-1589):
push the new outcome, keep only the last 100 entries
(`pingResults[device].slice(-100)`). -/
def pushAndTrim (window : List PingResult) (r : PingResult) : List PingResult :=
  let xs := window ++ [r]
  xs.drop (xs.length - 100)

/-- Modelled from the spec: `ping_avg` as §4.B words it — the rounded integer
mean of the latencies over successful probes in the window, 0 if none. -/
def specPingAvg (pings : List PingResult) : ℤ :=
  let lat := pings.filterMap (fun p => if p.success then p.time else none)
  if lat.length ≠ 0 then jsRound (lat.sum / (lat.length : ℚ)) else 0

/-- Modelled from the spec: `ping_success` as §4.B words it — the fraction
of probes whose `success` flag is set over the total, to two decimals. -/
def specPingSuccess (pings : List PingResult) : ℚ :=
  if pings.length ≠ 0 then
    roundTo2 (((pings.filter (fun p => p.success)).length : ℚ) / (pings.length : ℚ))
  else 0

/-- Fold a sequence of Homebase-Link updates (the `.link` events alone)
through `updateLocalStatusAndBroadcast`. -/
def runLinkUpdates (st : StatusState) :
    List (String × String × String × String × String) → StatusState
  | [] => st
  | (h, s, t, v, now) :: rest =>
    runLinkUpdates (updateLocalStatusAndBroadcast st h s t v now).1 rest

/-- The arrival list covers every chunk slot of a `totalChunks`-chunk
message. -/
def coversRange (t : Nat) (arrivals : List Nat) : Prop :=
  ∀ i, i < t → i ∈ arrivals

instance (t : Nat) (arrivals : List Nat) : Decidable (coversRange t arrivals) := by
  unfold coversRange; infer_instance

/-- The chunk-slot array of a partially received `totalChunks = t` message
whose delivered indices are `s` (with per-index data `d`): slot `j` holds
`d j` once delivered and the `""` fill otherwise. -/
def chunksOf (d : Nat → String) (t : Nat) (s : List Nat) : List String :=
  (List.range t).map (fun j => if j ∈ s then d j else "")

/-! ## Theorems -/

theorem jitterOf_lt {r : ℚ} (hr0 : 0 ≤ r) (hr1 : r < 1) {j : Nat} (hj : 0 < j) :
    jitterOf r j < j := by
  unfold jitterOf
  have hmul : r * (j : ℚ) < (j : ℚ) := by
    calc r * (j : ℚ) < 1 * (j : ℚ) := by
          apply mul_lt_mul_of_pos_right hr1
          exact_mod_cast hj
      _ = (j : ℚ) := one_mul _
  have hfl : ⌊r * (j : ℚ)⌋ < (j : ℤ) := by
    rw [Int.floor_lt]
    exact_mod_cast hmul
  have hnn : (0 : ℤ) ≤ ⌊r * (j : ℚ)⌋ :=
    Int.floor_nonneg.mpr (mul_nonneg hr0 (by positivity))
  omega

/-- C4.  Reconnect back-off: while less than 5 minutes have elapsed since the
first disconnect, every delay computed by `scheduleReconnect` lies in
`[2000, 3000)`; afterwards it lies in
`[min(120000, 15000·2^k), min(120000, 15000·2^k) + 2000)` where `k` counts the
failed attempts since the slow phase was entered (the phase marker is pinned
at entry, the failure counter advances by one per attempt); the `open`
handler resets the failure counters and the phase marker. -/
theorem C4_reconnect_backoff (st : ReconnectState) (now : Nat) (r : ℚ)
    (hr0 : 0 ≤ r) (hr1 : r < 1) :
    ((now - st.firstDisconnectAtMs.getD now < fastRetryWindowMs →
       fastRetryBaseMs ≤ (scheduleReconnect st now r).2 ∧
       (scheduleReconnect st now r).2 < fastRetryBaseMs + fastRetryJitterMs) ∧
     (¬(now - st.firstDisconnectAtMs.getD now < fastRetryWindowMs) →
       min slowMaxBackoffMs (slowBaseBackoffMs * 2 ^
           (st.consecutiveFailures + 1 -
             st.slowPhaseStartFailures.getD (st.consecutiveFailures + 1))) ≤
         (scheduleReconnect st now r).2 ∧
       (scheduleReconnect st now r).2 < min slowMaxBackoffMs (slowBaseBackoffMs * 2 ^
           (st.consecutiveFailures + 1 -
             st.slowPhaseStartFailures.getD (st.consecutiveFailures + 1))) + slowJitterMs ∧
       (scheduleReconnect st now r).1.slowPhaseStartFailures =
         some (st.slowPhaseStartFailures.getD (st.consecutiveFailures + 1)) ∧
       (scheduleReconnect st now r).1.consecutiveFailures = st.consecutiveFailures + 1)) ∧
    openResetReconnect st =
      { reconnectAttempts := 0, consecutiveFailures := 0,
        firstDisconnectAtMs := none, slowPhaseStartFailures := none } := by
  have hfast := jitterOf_lt hr0 hr1 (j := fastRetryJitterMs) (by norm_num [fastRetryJitterMs])
  have hslow := jitterOf_lt hr0 hr1 (j := slowJitterMs) (by norm_num [slowJitterMs])
  refine ⟨⟨?_, ?_⟩, rfl⟩ <;> intro hc
  · simp only [scheduleReconnect, hc, if_pos]
    unfold fastRetryBaseMs at *
    omega
  · simp only [scheduleReconnect, hc, if_neg, if_false]
    refine ⟨?_, ?_, ?_, ?_⟩ <;> first | trivial | omega

/-- C4 witness: a first failure right after disconnect falls in the fast
window and gets a delay in `[2000, 3000)`. -/
theorem C4_witness :
    fastRetryBaseMs ≤
      (scheduleReconnect ⟨0, 0, none, none⟩ 0 (1 / 2)).2 ∧
    (scheduleReconnect ⟨0, 0, none, none⟩ 0 (1 / 2)).2 <
      fastRetryBaseMs + fastRetryJitterMs :=
  (C4_reconnect_backoff ⟨0, 0, none, none⟩ 0 (1 / 2)
      (by norm_num) (by norm_num)).1.1 (by decide)

/-- C1 counterexample.  A Link update caches `a` for
`(10.0.0.1, ess, subject)`; a `status_changes` notification then rewrites the
snapshot entry to `b` without touching the Link's cache, so the accepted
update leaves the snapshot entry's value different from the cached last
value: the invariant as claimed fails. -/
theorem C1_counterexample :
    ¬ cacheAgrees (statusRun ⟨[], []⟩
      [.link "10.0.0.1" "ess" "subject" "a" "t1",
       .note ⟨"10.0.0.1", "ess", "subject", "b", "t2"⟩]) := by decide

/-- C2 counterexample.  With the snapshot preseeded from the database
(`fetchCurrentStatus`) and the Link cache empty, the first translated update
for the key differs from the (absent) cached value — one value change — yet
produces no broadcast, because the snapshot entry already carries the value.
So the broadcast count does not equal the value-change count. -/
theorem C2_counterexample :
    (updateLocalStatusAndBroadcast
        ⟨[⟨"h", "ess", "subject", "sally", "t0"⟩], []⟩
        "h" "ess" "subject" "sally" "t1").2.length = 0 ∧
    valueChanges none ["sally"] = 1 := by decide

set_option maxRecDepth 100000 in
/-- C3 counterexample.  Fill the queue to 200 while the socket is closed,
then let the socket open (the `open` handler does not drain); a further
`eval` call made while the queue still holds 200 entries does *not* fail
with `Request queue full` — it is sent immediately and leaves the 200
entries queued. -/
theorem C3_counterexample :
    (evalCall (linkRun [] linkInit
        (List.replicate 200 (LinkEvent.evalReq "a" 10000 0) ++ [LinkEvent.sockOpen]))
        "b" 10000 1).2 = [LinkOutput.sent 0 "b"] ∧
    (evalCall (linkRun [] linkInit
        (List.replicate 200 (LinkEvent.evalReq "a" 10000 0) ++ [LinkEvent.sockOpen]))
        "b" 10000 1).1.evalQueue.length = 200 := by decide

/-- C5 counterexample.  A two-chunk message whose second chunk carries empty
`data`: after every slot has received its chunk, nothing is dispatched (the
completeness test counts non-empty slots) and the buffer is retained — the
claimed dispatch does not happen. -/
theorem C5_counterexample :
    (runChunks [] [⟨"m", 0, 2, "null"⟩, ⟨"m", 1, 2, ""⟩]).2 = [] ∧
    (runChunks [] [⟨"m", 0, 2, "null"⟩, ⟨"m", 1, 2, ""⟩]).1 =
      [("m", ⟨["null", ""], 2⟩)] := by decide

/-- C7 counterexample.  `ess/obs_active` with value `"1.5"` is coerced by
`Number(value) || 0` to the non-integer 3/2, not to an integer. -/
theorem C7_counterexample :
    processDatapointTranslate "ess/obs_active" "1.5" =
      ⟨"ess", "in_obs", .num (obsCoerce "1.5")⟩ ∧
    obsCoerce "1.5" = 3 / 2 ∧
    ¬∃ n : ℤ, obsCoerce "1.5" = (n : ℚ) := by
  have hv : obsCoerce "1.5" =
      1 * (((1 : Nat) : ℚ) + ((5 : Nat) : ℚ) / (10 : ℚ) ^ (1 : Nat)) *
        (10 : ℚ) ^ (0 : ℤ) := rfl
  have hv' : obsCoerce "1.5" = 3 / 2 := by rw [hv]; norm_num
  refine ⟨rfl, hv', ?_⟩
  rintro ⟨n, hn⟩
  rw [hv'] at hn
  rw [div_eq_iff (by norm_num : (2 : ℚ) ≠ 0)] at hn
  have h3 : (3 : ℤ) = n * 2 := by exact_mod_cast hn
  omega

/-- C8.  `perf_stats_changes` with `trials = 0` and a matching snapshot
entry: the code *replaces* the entry with the zero-trials payload instead of
removing it, because `handleRecentStatsChanges` passes `false` for
`deleteOnZeroTrials` (against its own `// Enable delete on zero trials`
comment); the payload is still broadcast.  With `true` the entry would have
been removed. -/
theorem C8_zero_trials_not_dropped :
    (handleRecentStatsChanges
        ⟨"perf", "10.0.0.1", "sally", "proj", "sys", "prot", "var", 0, 0, 0, 0, "t1"⟩
        [⟨"perf", "10.0.0.1", "sally", "proj", "sys", "prot", "var", 1, 2, 3, 5, "t0"⟩]).1 =
      [⟨"perf", "10.0.0.1", "sally", "proj", "sys", "prot", "var", 0, 0, 0, 0, "t1"⟩] ∧
    (handleRecentStatsChanges
        ⟨"perf", "10.0.0.1", "sally", "proj", "sys", "prot", "var", 0, 0, 0, 0, "t1"⟩
        [⟨"perf", "10.0.0.1", "sally", "proj", "sys", "prot", "var", 1, 2, 3, 5, "t0"⟩]).2 =
      [⟨"perf", "10.0.0.1", "sally", "proj", "sys", "prot", "var", 0, 0, 0, 0, "t1"⟩] ∧
    (handleNotificationStats
        ⟨"perf", "10.0.0.1", "sally", "proj", "sys", "prot", "var", 0, 0, 0, 0, "t1"⟩
        [⟨"perf", "10.0.0.1", "sally", "proj", "sys", "prot", "var", 1, 2, 3, 5, "t0"⟩]
        true).1 = [] := by decide

/-- C9 counterexample.  A probe recorded as successful but with no latency
(`{success: true, time: undefined}`, as `pingDevices` pushes when the ping
library reports no numeric time): `calculatePingStats` reports
`ping_success = 0`, while the claimed successes-over-total fraction is 1. -/
theorem C9_counterexample :
    (calculatePingStats [⟨true, none⟩]).successRate = 0 ∧
    specPingSuccess [⟨true, none⟩] = 1 := by
  have h1 : (calculatePingStats [⟨true, none⟩]).successRate =
      roundTo2 ((0 : ℚ) / (1 : Nat)) := rfl
  have h2 : specPingSuccess [⟨true, none⟩] = roundTo2 ((1 : ℚ) / (1 : Nat)) := rfl
  rw [h1, h2]
  constructor <;> norm_num [roundTo2]

theorem tryDrainQueue_empty (st : LinkState) (h : st.evalQueue = []) :
    tryDrainQueue st = (st, []) := by
  unfold tryDrainQueue
  rw [h]
  split <;> rfl

theorem safeBroadcastGo_mem (ev m : String) (sockets : List Bool) :
    ∀ k i : Nat,
      (LinkOutput.browserSend i ⟨ev, m⟩ ∈ safeBroadcastGo ev m k sockets ↔
        ∃ d, i = k + d ∧ sockets.get? d = some true) := by
  induction sockets with
  | nil =>
    intro k i
    simp [safeBroadcastGo]
  | cons b rest ih =>
    intro k i
    simp only [safeBroadcastGo, List.mem_append]
    constructor
    · rintro (h1 | h2)
      · by_cases hb : b
        · subst hb
          simp only [if_true, List.mem_singleton, LinkOutput.browserSend.injEq] at h1
          exact ⟨0, by omega, by simp [h1.1]⟩
        · simp [hb] at h1
      · obtain ⟨d, hd, hg⟩ := (ih (k + 1) i).1 h2
        exact ⟨d + 1, by omega, by simpa using hg⟩
    · rintro ⟨d, rfl, hg⟩
      cases d with
      | zero =>
        left
        simp only [List.get?] at hg
        have hb : b = true := by injection hg
        simp [hb]
      | succ d' =>
        right
        refine (ih (k + 1) (k + (d' + 1))).2 ⟨d', by omega, ?_⟩
        simpa using hg

theorem safeBroadcast_mem (ev m : String) (sockets : List Bool) (i : Nat) :
    LinkOutput.browserSend i ⟨ev, m⟩ ∈ safeBroadcast sockets ev m ↔
      sockets.get? i = some true := by
  unfold safeBroadcast
  rw [safeBroadcastGo_mem]
  constructor
  · rintro ⟨d, rfl, h⟩
    simpa using h
  · intro h
    exact ⟨i, by omega, h⟩

/-- C10.  Late responses are inert: a frame carrying a `requestId` that is
not in the pending table, and that is not a datapoint frame, leaves the Link
state (pending table, in-flight counter, queue) unchanged and produces no
output — in particular no promise completion and no `TCL_ERROR` broadcast,
even when the frame's status is `error`. -/
theorem C10_late_response_inert (sockets : List Bool) (st : LinkState)
    (msg : HbMessage) (rid : Nat)
    (hrid : msg.requestId = some rid)
    (habs : st.requestMap.find? (fun p => p.rid == rid) = none)
    (hdp : msg.msgType ≠ some "datapoint") :
    handleMessage sockets st msg = (st, []) := by
  unfold handleMessage
  simp only [hrid, habs]
  unfold handleMessage.handleMessageRest
  have hb : (msg.msgType == some "datapoint") = false := by
    simpa using hdp
  rw [if_neg (by simp [hb])]
  split <;> rfl

/-- C10 witness: a late `error` response with an unknown `requestId` is
dropped with no state change and no broadcast. -/
theorem C10_witness :
    handleMessage [true] linkInit
      ⟨some 5, some "error", none, some "boom", none, none, none, none⟩ =
    (linkInit, []) :=
  C10_late_response_inert [true] linkInit
    ⟨some 5, some "error", none, some "boom", none, none, none, none⟩ 5
    rfl rfl (by decide)

/-- C6.  Response correlation: when a response frame's `requestId` is pending
(and, per the machine invariant, the in-flight counter mirrors the pending
table, with an empty queue so that the drain loop is quiescent), the entry is
removed from the table, the in-flight count decreases by exactly one, an `ok`
status resolves the pending promise with the frame's `result`, and an `error`
status rejects it with the frame's error message and broadcasts that message
as `{type: TCL_ERROR, data: message}` to exactly the open browser sockets. -/
theorem C6_response_correlation (sockets : List Bool) (st : LinkState)
    (rid cref : Nat) (script : String) (msg : HbMessage)
    (hq : st.evalQueue = [])
    (hfind : st.requestMap.find? (fun p => p.rid == rid) = some ⟨rid, cref, script⟩)
    (hifl : st.currentInFlight = st.requestMap.length)
    (hrid : msg.requestId = some rid) :
    (handleMessage sockets st msg).1.requestMap =
      st.requestMap.filter (fun p => p.rid != rid) ∧
    (handleMessage sockets st msg).1.currentInFlight + 1 = st.currentInFlight ∧
    (msg.status = some "ok" →
      (handleMessage sockets st msg).2 = [LinkOutput.resolved cref msg.result]) ∧
    (∀ e, msg.status = some "error" → msg.error = some e → e ≠ "" →
      (handleMessage sockets st msg).2 =
        LinkOutput.rejected cref e :: safeBroadcast sockets "TCL_ERROR" e) ∧
    (∀ e i, LinkOutput.browserSend i ⟨"TCL_ERROR", e⟩ ∈
        safeBroadcast sockets "TCL_ERROR" e ↔ sockets.get? i = some true) := by
  have hmem : (⟨rid, cref, script⟩ : PendingEntry) ∈ st.requestMap :=
    List.mem_of_find?_eq_some hfind
  have hlen : 0 < st.requestMap.length := List.length_pos_of_mem hmem
  have hdq := tryDrainQueue_empty
    { st with requestMap := st.requestMap.filter (fun p => p.rid != rid),
              currentInFlight := st.currentInFlight - 1 } (by simpa using hq)
  unfold handleMessage
  simp only [hrid, hfind, hdq]
  refine ⟨?_, ?_, ?_, ?_, fun e i => safeBroadcast_mem "TCL_ERROR" e sockets i⟩
  · split <;> rfl
  · have : st.currentInFlight - 1 + 1 = st.currentInFlight := by omega
    split <;> simpa using this
  · intro hs
    rw [if_pos (by simp [hs])]
    simp
  · intro e hs he hne
    rw [if_neg (by simp [hs])]
    simp only [he]
    rw [if_neg (by simpa using hne)]
    simp

/-- C6 witness: concrete `ok` and `error` responses at a one-entry pending
table. -/
theorem C6_witness :
    (handleMessage [true, false] ⟨true, [⟨7, 3, "s"⟩], 1, [], 8⟩
        ⟨some 7, some "ok", some "3.3", none, none, none, none, none⟩).1.requestMap = [] ∧
    (handleMessage [true, false] ⟨true, [⟨7, 3, "s"⟩], 1, [], 8⟩
        ⟨some 7, some "ok", some "3.3", none, none, none, none, none⟩).2 =
      [LinkOutput.resolved 3 (some "3.3")] := by
  have h := C6_response_correlation [true, false] ⟨true, [⟨7, 3, "s"⟩], 1, [], 8⟩
    7 3 "s" ⟨some 7, some "ok", some "3.3", none, none, none, none, none⟩
    rfl (by decide) rfl rfl
  exact ⟨h.1.trans (by decide), h.2.2.1 rfl⟩

theorem filter_rid_length {l : List PendingEntry} {r : Nat}
    (hn : (l.map (fun p => p.rid)).Nodup)
    {p : PendingEntry} (hf : l.find? (fun q => q.rid == r) = some p) :
    (l.filter (fun q => q.rid != r)).length + 1 = l.length := by
  induction l with
  | nil => simp at hf
  | cons a tl ih =>
    simp only [List.map_cons, List.nodup_cons] at hn
    by_cases ha : (a.rid == r) = true
    · have har : a.rid = r := by simpa using ha
      have htl : ∀ q ∈ tl, (q.rid != r) = true := by
        intro q hq
        have hne : q.rid ≠ a.rid := fun hqe =>
          hn.1 (List.mem_map.mpr ⟨q, hq, hqe⟩)
        simp only [bne_iff_ne, ne_eq]
        rw [← har]
        exact hne
      rw [List.filter_cons]
      have hfa : (a.rid != r) = false := by simp [har]
      rw [hfa]
      simp [List.filter_eq_self.mpr htl]
    · have ha' : (a.rid == r) = false := by simpa using ha
      have hf' : tl.find? (fun q => q.rid == r) = some p := by
        simpa [List.find?_cons, ha'] using hf
      have har : a.rid ≠ r := by simpa using ha
      have hrec := ih hn.2 hf'
      rw [List.filter_cons]
      have hfa : (a.rid != r) = true := by simpa using har
      rw [hfa]
      simp only [if_true, List.length_cons]
      omega

theorem drainAux_inv : ∀ (fuel : Nat) (st : LinkState),
    linkInv st → linkInv (drainAux fuel st).1 := by
  intro fuel
  induction fuel with
  | zero => intro st h; simpa [drainAux] using h
  | succ n ih =>
    intro st h
    rw [drainAux]
    split
    · next hlt =>
      split
      · exact h
      · next job rest hq =>
        apply ih
        obtain ⟨h1, h2, h3, h4, h5⟩ := h
        refine ⟨by simp [h1], by simp; omega, ?_, ?_, ?_⟩
        · simp only []
          rw [hq] at h3
          simp at h3
          omega
        · simp only [List.map_append, List.map_cons, List.map_nil]
          rw [List.nodup_append]
          refine ⟨h4, List.nodup_singleton _, ?_⟩
          intro x hx hx'
          simp only [List.mem_singleton] at hx'
          obtain ⟨q, hq', hqe⟩ := List.mem_map.mp hx
          have := h5 q hq'
          omega
        · intro q hqmem
          rcases List.mem_append.mp hqmem with hold | hnew
          · have := h5 q hold
            simp only []
            omega
          · simp only [List.mem_singleton] at hnew
            subst hnew
            simp
    · exact h

theorem tryDrainQueue_inv (st : LinkState) (h : linkInv st) :
    linkInv (tryDrainQueue st).1 := by
  unfold tryDrainQueue
  split
  · exact drainAux_inv _ _ h
  · exact h

theorem handleMessageRest_fst (st : LinkState) (msg : HbMessage) :
    (handleMessage.handleMessageRest st msg).1 = st := by
  unfold handleMessage.handleMessageRest
  split
  · rfl
  · split <;> rfl

theorem linkInv_filter (st : LinkState) (rid : Nat) (p : PendingEntry)
    (h : linkInv st)
    (hf : st.requestMap.find? (fun q => q.rid == rid) = some p) :
    linkInv { st with requestMap := st.requestMap.filter (fun q => q.rid != rid),
                      currentInFlight := st.currentInFlight - 1 } := by
  obtain ⟨h1, h2, h3, h4, h5⟩ := h
  have hlen := filter_rid_length h4 hf
  refine ⟨by simp; omega, ?_, by simpa using h3, ?_, ?_⟩
  · simp only []
    have := List.length_filter_le (fun q => q.rid != rid) st.requestMap
    omega
  · simp only []
    exact (List.Sublist.map (fun p => p.rid)
      (List.filter_sublist st.requestMap)).nodup h4
  · intro q hq
    exact h5 q (List.mem_of_mem_filter hq)

theorem handleMessage_inv (sockets : List Bool) (st : LinkState) (msg : HbMessage)
    (h : linkInv st) : linkInv (handleMessage sockets st msg).1 := by
  unfold handleMessage
  split
  · next rid heq =>
    cases hf : st.requestMap.find? (fun p => p.rid == rid) with
    | none =>
      simp only [hf]
      rw [handleMessageRest_fst]
      exact h
    | some pending =>
      simp only [hf]
      have hst' := linkInv_filter st rid pending h hf
      have hd := tryDrainQueue_inv _ hst'
      split <;> exact hd
  · rw [handleMessageRest_fst]
    exact h

theorem timeoutFire_inv (st : LinkState) (rid : Nat)
    (h : linkInv st) : linkInv (timeoutFire st rid).1 := by
  unfold timeoutFire
  cases hf : st.requestMap.find? (fun p => p.rid == rid) with
  | none => exact h
  | some pending =>
    simp only []
    exact tryDrainQueue_inv _ (linkInv_filter st rid pending h hf)

theorem evalCall_inv (st : LinkState) (script : String) (t cref : Nat)
    (h : linkInv st) : linkInv (evalCall st script t cref).1 := by
  unfold evalCall
  obtain ⟨h1, h2, h3, h4, h5⟩ := h
  split
  · next hcond =>
    have hlt : st.currentInFlight < maxInFlight := by
      rcases Bool.and_eq_true_iff.mp hcond with ⟨_, hb⟩
      exact of_decide_eq_true hb
    refine ⟨by simp [h1], by simp; omega, by simpa using h3, ?_, ?_⟩
    · simp only [List.map_append, List.map_cons, List.map_nil]
      rw [List.nodup_append]
      refine ⟨h4, List.nodup_singleton _, ?_⟩
      intro x hx hx'
      simp only [List.mem_singleton] at hx'
      obtain ⟨q, hq', hqe⟩ := List.mem_map.mp hx
      have := h5 q hq'
      omega
    · intro q hqmem
      rcases List.mem_append.mp hqmem with hold | hnew
      · have := h5 q hold
        simp only []
        omega
      · simp only [List.mem_singleton] at hnew
        subst hnew
        simp
  · split
    · exact ⟨h1, h2, h3, h4, h5⟩
    · next hfull =>
      apply tryDrainQueue_inv
      refine ⟨h1, h2, ?_, h4, h5⟩
      simp only [List.length_append, List.length_cons, List.length_nil]
      omega

theorem linkStep_inv (sockets : List Bool) (st : LinkState) (ev : LinkEvent)
    (h : linkInv st) : linkInv (linkStep sockets st ev).1 := by
  cases ev with
  | evalReq script t cref => exact evalCall_inv st script t cref h
  | msgIn msg => exact handleMessage_inv sockets st msg h
  | timerFire rid => exact timeoutFire_inv st rid h
  | sockOpen => exact h
  | sockClose => exact h

theorem linkRun_inv (sockets : List Bool) :
    ∀ (evs : List LinkEvent) (st : LinkState),
      linkInv st → linkInv (linkRun sockets st evs) := by
  intro evs
  induction evs with
  | nil => intro st h; exact h
  | cons ev rest ih =>
    intro st h
    exact ih _ (linkStep_inv sockets st ev h)

theorem drainAux_stuck (fuel : Nat) (st : LinkState)
    (h : maxInFlight ≤ st.currentInFlight) : drainAux fuel st = (st, []) := by
  cases fuel with
  | zero => rfl
  | succ n =>
    rw [drainAux]
    rw [if_neg (by omega)]

theorem drainAux_dequeue : ∀ (fuel : Nat) (st : LinkState),
    (drainAux fuel st).1.evalQueue =
      st.evalQueue.drop (drainAux fuel st).2.length ∧
    ∀ o ∈ (drainAux fuel st).2, ∃ rid s, o = LinkOutput.sent rid s := by
  intro fuel
  induction fuel with
  | zero => intro st; simp [drainAux]
  | succ n ih =>
    intro st
    rw [drainAux]
    split
    · split
      · next hq => simp [hq]
      · next job rest hq =>
        constructor
        · simp only [List.length_cons]
          rw [hq, List.drop_succ_cons]
          exact (ih _).1
        · intro o ho
          rcases List.mem_cons.mp ho with rfl | hmem
          · exact ⟨_, _, rfl⟩
          · exact (ih _).2 o hmem
    · simp

theorem tryDrainQueue_dequeue (st : LinkState) :
    (tryDrainQueue st).1.evalQueue =
      st.evalQueue.drop (tryDrainQueue st).2.length ∧
    ∀ o ∈ (tryDrainQueue st).2, ∃ rid s, o = LinkOutput.sent rid s := by
  unfold tryDrainQueue
  split
  · exact drainAux_dequeue _ _
  · simp

/-- C3 (amended).  Request caps: along every event trace the Link invariant
holds — the in-flight count mirrors the pending table and is at most 8, and
the queue holds at most 200 entries.  An `eval` call made when the queue
holds 200 entries *and the immediate-send path is unavailable* (socket not
open, or 8 requests already in flight) fails synchronously with
`Request queue full`, leaving queue, pending table and in-flight count
unchanged.  Every `eval` call is sent immediately, rejected synchronously
with `Request queue full`, or appended to the queue with no other effect;
and the drain loop removes queued requests only by sending them. -/
theorem C3_request_caps :
    (∀ evs : List LinkEvent, linkInv (linkRun [] linkInit evs)) ∧
    (∀ (st : LinkState) (script : String) (t cref : Nat),
      st.evalQueue.length = maxQueueSize →
      ¬(st.wsOpen = true ∧ st.currentInFlight < maxInFlight) →
      evalCall st script t cref =
        (st, [LinkOutput.rejected cref "Request queue full"])) ∧
    (∀ (st : LinkState) (script : String) (t cref : Nat),
      (st.wsOpen = true ∧ st.currentInFlight < maxInFlight ∧
        evalCall st script t cref =
          ({ st with requestMap := st.requestMap ++ [⟨st.nextId, cref, script⟩],
                     currentInFlight := st.currentInFlight + 1,
                     nextId := st.nextId + 1 },
           [LinkOutput.sent st.nextId script])) ∨
      (¬(st.wsOpen = true ∧ st.currentInFlight < maxInFlight) ∧
        maxQueueSize ≤ st.evalQueue.length ∧
        evalCall st script t cref =
          (st, [LinkOutput.rejected cref "Request queue full"])) ∨
      (¬(st.wsOpen = true ∧ st.currentInFlight < maxInFlight) ∧
        st.evalQueue.length < maxQueueSize ∧
        evalCall st script t cref =
          ({ st with evalQueue := st.evalQueue ++ [⟨script, t, cref⟩] }, []))) ∧
    (∀ st : LinkState,
      (tryDrainQueue st).1.evalQueue =
        st.evalQueue.drop (tryDrainQueue st).2.length ∧
      ∀ o ∈ (tryDrainQueue st).2, ∃ rid s, o = LinkOutput.sent rid s) := by
  have hcond : ∀ st : LinkState,
      ((st.wsOpen && decide (st.currentInFlight < maxInFlight)) = true) ↔
        (st.wsOpen = true ∧ st.currentInFlight < maxInFlight) := by
    intro st
    simp [Bool.and_eq_true]
  have henq : ∀ (st : LinkState) (script : String) (t cref : Nat),
      ¬(st.wsOpen = true ∧ st.currentInFlight < maxInFlight) →
      tryDrainQueue { st with evalQueue := st.evalQueue ++ [⟨script, t, cref⟩] } =
        ({ st with evalQueue := st.evalQueue ++ [⟨script, t, cref⟩] }, []) := by
    intro st script t cref hng
    unfold tryDrainQueue
    cases hw : st.wsOpen with
    | false => rw [if_neg (by simp [hw])]
    | true =>
      rw [if_pos (by simp [hw])]
      apply drainAux_stuck
      simp only []
      by_contra hlt
      exact hng ⟨hw, by omega⟩
  refine ⟨?_, ?_, ?_, tryDrainQueue_dequeue⟩
  · intro evs
    exact linkRun_inv [] evs linkInit (by decide)
  · intro st script t cref hfull hng
    unfold evalCall
    rw [if_neg (by rw [hcond st]; exact hng)]
    rw [if_pos (by omega)]
  · intro st script t cref
    by_cases hA : st.wsOpen = true ∧ st.currentInFlight < maxInFlight
    · refine Or.inl ⟨hA.1, hA.2, ?_⟩
      unfold evalCall
      rw [if_pos ((hcond st).mpr hA)]
    · by_cases hB : maxQueueSize ≤ st.evalQueue.length
      · refine Or.inr (Or.inl ⟨hA, hB, ?_⟩)
        unfold evalCall
        rw [if_neg (by rw [hcond st]; exact hA)]
        rw [if_pos hB]
      · refine Or.inr (Or.inr ⟨hA, by omega, ?_⟩)
        unfold evalCall
        rw [if_neg (by rw [hcond st]; exact hA)]
        rw [if_neg hB]
        exact henq st script t cref hA

set_option maxRecDepth 100000 in
/-- C3 witness: the invariant after a concrete trace, and a concrete
synchronous `Request queue full` rejection at a full queue on a closed
socket. -/
theorem C3_witness :
    linkInv (linkRun [] linkInit
      [LinkEvent.sockOpen, LinkEvent.evalReq "s" 10000 0]) ∧
    evalCall { linkInit with evalQueue := List.replicate 200 ⟨"q", 1, 2⟩ }
        "s" 10 99 =
      ({ linkInit with evalQueue := List.replicate 200 ⟨"q", 1, 2⟩ },
       [LinkOutput.rejected 99 "Request queue full"]) :=
  ⟨C3_request_caps.1 [LinkEvent.sockOpen, LinkEvent.evalReq "s" 10000 0],
   C3_request_caps.2.1 { linkInit with evalQueue := List.replicate 200 ⟨"q", 1, 2⟩ }
     "s" 10 99 (by decide) (by decide)⟩

theorem pingFilterMap (pings : List PingResult) :
    (pings.filter (fun p => p.success && p.time.isSome)).map (fun p => p.time.getD 0) =
      pings.filterMap (fun p => if p.success then p.time else none) := by
  induction pings with
  | nil => rfl
  | cons p rest ih =>
    cases hs : p.success <;> cases ht : p.time <;>
      simp [List.filter_cons, List.filterMap_cons, hs, ht, ih]

/-- C9 (amended).  `ping_avg` is the rounded integer mean of the *recorded*
latencies of successful probes (0 when none); `ping_success` is the count of
probes that succeeded *with a recorded latency* over the total, rounded to
two decimals (0 on an empty window); and a probe cycle keeps at most the 100
most recent outcomes, dropping the oldest first. -/
theorem C9_ping_stats :
    (∀ pings : List PingResult,
      (calculatePingStats pings).avgTime = specPingAvg pings) ∧
    (∀ pings : List PingResult,
      (calculatePingStats pings).successRate =
        if pings.length ≠ 0 then
          roundTo2 ((pings.countP (fun p => p.success && p.time.isSome) : ℚ) /
            (pings.length : ℚ))
        else 0) ∧
    (∀ (w : List PingResult) (r : PingResult),
      (pushAndTrim w r).length = min 100 (w.length + 1) ∧
      pushAndTrim w r = (w ++ [r]).drop (w.length + 1 - 100)) := by
  refine ⟨?_, ?_, ?_⟩
  · intro pings
    unfold calculatePingStats specPingAvg
    rw [← pingFilterMap]
    simp [List.length_map]
  · intro pings
    unfold calculatePingStats
    rw [List.countP_eq_length_filter]
  · intro w r
    constructor
    · unfold pushAndTrim
      simp only [List.length_drop, List.length_append, List.length_cons,
        List.length_nil]
      omega
    · unfold pushAndTrim
      simp only [List.length_append, List.length_cons, List.length_nil]

/-- C7 (amended).  The translator is a total function; it realizes the
mapping table: `@keys` → `(system, @keys)` raw; a name whose lowercase form
begins with `ess/git/` → `(git, suffix after the first 8 chars)` raw;
`ess/obs_active` and `ess/in_obs` → `(ess, in_obs)` with the value coerced by
`Number(value) || 0` to a *number* that is 0 when the value is unparsable
(not necessarily an integer); any other name whose first `/` sits after the
first character splits there; any other name without `/` → `(system, name)`
raw. -/
theorem C7_translator :
    (∀ v, processDatapointTranslate "@keys" v = ⟨"system", "@keys", .str v⟩) ∧
    (∀ name v, jsToLower name ≠ "@keys" →
      "ess/git/".data.isPrefixOf (jsToLower name).data = true →
      processDatapointTranslate name v =
        ⟨"git", (name.data.drop 8).asString, .str v⟩) ∧
    (∀ v, processDatapointTranslate "ess/obs_active" v =
      ⟨"ess", "in_obs", .num (obsCoerce v)⟩) ∧
    (∀ v, processDatapointTranslate "ess/in_obs" v =
      ⟨"ess", "in_obs", .num (obsCoerce v)⟩) ∧
    (∀ v, jsNumber v = none → obsCoerce v = 0) ∧
    (∀ name v i, jsToLower name ≠ "@keys" →
      ¬("ess/git/".data.isPrefixOf (jsToLower name).data = true) →
      jsToLower name ≠ "ess/obs_active" → jsToLower name ≠ "ess/in_obs" →
      name.data.findIdx? (fun c => c == '/') = some i → 0 < i →
      processDatapointTranslate name v =
        ⟨(name.data.take i).asString, (name.data.drop (i + 1)).asString, .str v⟩) ∧
    (∀ name v, jsToLower name ≠ "@keys" →
      ¬("ess/git/".data.isPrefixOf (jsToLower name).data = true) →
      jsToLower name ≠ "ess/obs_active" → jsToLower name ≠ "ess/in_obs" →
      name.data.findIdx? (fun c => c == '/') = none →
      processDatapointTranslate name v = ⟨"system", name, .str v⟩) := by
  refine ⟨?_, ?_, ?_, ?_, ?_, ?_, ?_⟩
  · intro v
    unfold processDatapointTranslate
    rw [if_pos (by decide)]
  · intro name v h1 h2
    unfold processDatapointTranslate
    rw [if_neg (by simpa using h1), if_pos h2]
  · intro v
    unfold processDatapointTranslate
    rw [if_neg (by decide), if_neg (by decide), if_pos (by decide)]
  · intro v
    unfold processDatapointTranslate
    rw [if_neg (by decide), if_neg (by decide), if_neg (by decide),
      if_pos (by decide)]
  · intro v h
    unfold obsCoerce
    rw [h]
    rfl
  · intro name v i h1 h2 h3 h4 hfi hi
    unfold processDatapointTranslate
    rw [if_neg (by simpa using h1), if_neg h2, if_neg (by simpa using h3),
      if_neg (by simpa using h4), hfi]
    simp [hi]
  · intro name v h1 h2 h3 h4 hfi
    unfold processDatapointTranslate
    rw [if_neg (by simpa using h1), if_neg h2, if_neg (by simpa using h3),
      if_neg (by simpa using h4), hfi]

/-- C7 witness: the table rows at concrete names. -/
theorem C7_witness :
    processDatapointTranslate "ess/git/branch" "main" =
      ⟨"git", "branch", .str "main"⟩ ∧
    processDatapointTranslate "system/hostname" "pi" =
      ⟨"system", "hostname", .str "pi"⟩ ∧
    processDatapointTranslate "hostname" "pi" =
      ⟨"system", "hostname", .str "pi"⟩ ∧
    processDatapointTranslate "@keys" "k" = ⟨"system", "@keys", .str "k"⟩ := by
  refine ⟨?_, ?_, ?_, C7_translator.1 "k"⟩
  · exact (C7_translator.2.1 "ess/git/branch" "main" (by decide) (by decide)).trans
      (by decide)
  · exact (C7_translator.2.2.2.2.2.1 "system/hostname" "pi" 6 (by decide) (by decide)
      (by decide) (by decide) (by decide) (by decide)).trans (by decide)
  · exact (C7_translator.2.2.2.2.2.2 "hostname" "pi" (by decide) (by decide)
      (by decide) (by decide) (by decide)).trans (by decide)

theorem chunksOf_length (d : Nat → String) (t : Nat) (s : List Nat) :
    (chunksOf d t s).length = t := by simp [chunksOf]

theorem mapRangeSet (t : Nat) (g : Nat → String) (i : Nat) (v : String)
    (_hi : i < t) :
    ((List.range t).map g).set i v =
      (List.range t).map (fun j => if j = i then v else g j) := by
  apply List.ext_getElem
  · simp
  · intro n h1 h2
    simp only [List.getElem_set, List.getElem_map, List.getElem_range]
    by_cases hn : i = n
    · subst hn
      simp
    · simp [hn, Ne.symm hn]

theorem chunksOf_setPad (d : Nat → String) (t : Nat) (s : List Nat) (i : Nat)
    (hi : i < t) :
    listSetPad (chunksOf d t s) i (d i) = chunksOf d t (i :: s) := by
  unfold listSetPad
  rw [if_pos (by rw [chunksOf_length]; exact hi)]
  unfold chunksOf
  rw [mapRangeSet t _ i (d i) hi]
  apply List.map_congr_left
  intro j hj
  by_cases hji : j = i
  · subst hji
    simp
  · simp [hji, List.mem_cons]

theorem chunksOf_received (d : Nat → String) (t : Nat) (s : List Nat)
    (hd : ∀ j, j < t → d j ≠ "") :
    ((chunksOf d t s).filter (fun c => c != "")).length =
      ((List.range t).filter (fun j => decide (j ∈ s))).length := by
  unfold chunksOf
  rw [List.filter_map, List.length_map]
  congr 1
  apply List.filter_congr
  intro j hj
  have hjt : j < t := List.mem_range.mp hj
  by_cases hjs : j ∈ s
  · simp [hjs, hd j hjt]
  · simp [hjs]

theorem covers_received (d : Nat → String) (t : Nat) (s : List Nat)
    (hd : ∀ j, j < t → d j ≠ "") (hcov : coversRange t s) :
    ((chunksOf d t s).filter (fun c => c != "")).length = t := by
  rw [chunksOf_received d t s hd]
  have hself : (List.range t).filter (fun j => decide (j ∈ s)) = List.range t := by
    apply List.filter_eq_self.mpr
    intro j hj
    simpa using hcov j (List.mem_range.mp hj)
  rw [hself, List.length_range]

theorem notCovers_received (d : Nat → String) (t : Nat) (s : List Nat)
    (hd : ∀ j, j < t → d j ≠ "") (hcov : ¬coversRange t s) :
    ((chunksOf d t s).filter (fun c => c != "")).length ≠ t := by
  rw [chunksOf_received d t s hd]
  unfold coversRange at hcov
  push_neg at hcov
  obtain ⟨j, hjt, hjs⟩ := hcov
  have hlt : ((List.range t).filter (fun j => decide (j ∈ s))).length <
      (List.range t).length := by
    apply List.length_filter_lt_length_iff_exists.mpr
    exact ⟨j, List.mem_range.mpr hjt, by simpa using hjs⟩
  rw [List.length_range] at hlt
  omega

theorem chunksOf_covers (d : Nat → String) (t : Nat) (s : List Nat)
    (hcov : coversRange t s) :
    chunksOf d t s = (List.range t).map d := by
  unfold chunksOf
  apply List.map_congr_left
  intro j hj
  simp [hcov j (List.mem_range.mp hj)]

theorem processChunk_step (mid : String) (d : Nat → String) (t : Nat)
    (ht1 : 1 ≤ t) (ht2 : t ≤ maxChunkTotal) (hd : ∀ j, j < t → d j ≠ "")
    (s : List Nat) (i : Nat) (hi : i < t) :
    processChunk [(mid, ⟨chunksOf d t s, t⟩)] ⟨mid, i, t, d i⟩ =
      if coversRange t (i :: s) then
        ([], some (String.join ((List.range t).map d)))
      else
        ([(mid, ⟨chunksOf d t (i :: s), t⟩)], none) := by
  have ht2' : t ≤ 2000 := ht2
  have hget : bufGet [(mid, (⟨chunksOf d t s, t⟩ : ChunkBuf))] mid =
      some ⟨chunksOf d t s, t⟩ := by
    simp [bufGet, List.find?_cons]
  simp only [processChunk]
  rw [if_neg (by simp only [Bool.or_eq_true, beq_iff_eq, decide_eq_true_eq,
    maxChunkTotal]; omega)]
  simp only [hget, Option.isSome_some, if_true, Option.getD_some,
    chunksOf_setPad d t s i hi]
  by_cases hcov : coversRange t (i :: s)
  · rw [if_pos hcov]
    have hrec := covers_received d t (i :: s) hd hcov
    rw [if_pos (by simpa using hrec)]
    rw [chunksOf_covers d t (i :: s) hcov]
    simp [bufDelete]
  · rw [if_neg hcov]
    have hrec := notCovers_received d t (i :: s) hd hcov
    rw [if_neg (by simpa using hrec)]
    simp [bufSet]

theorem chunksOf_congr (d : Nat → String) (t : Nat) {s1 s2 : List Nat}
    (h : ∀ j, j ∈ s1 ↔ j ∈ s2) : chunksOf d t s1 = chunksOf d t s2 := by
  unfold chunksOf
  apply List.map_congr_left
  intro j _
  simp [h j]

theorem chunksOf_nil_eq (d : Nat → String) (t : Nat) :
    List.replicate t "" = chunksOf d t [] := by
  unfold chunksOf
  simp

theorem processChunk_create (mid : String) (d : Nat → String) (t : Nat)
    (ht1 : 1 ≤ t) (ht2 : t ≤ maxChunkTotal) (hd : ∀ j, j < t → d j ≠ "")
    (i : Nat) (hi : i < t) :
    processChunk [] ⟨mid, i, t, d i⟩ =
      if coversRange t [i] then
        ([], some (String.join ((List.range t).map d)))
      else
        ([(mid, ⟨chunksOf d t [i], t⟩)], none) := by
  have ht2' : t ≤ 2000 := ht2
  have hget : bufGet
      (bufSet [] mid (⟨chunksOf d t [], t⟩ : ChunkBuf)) mid =
      some ⟨chunksOf d t [], t⟩ := by
    simp [bufGet, bufSet, List.find?_cons]
  simp only [processChunk]
  rw [if_neg (by simp only [Bool.or_eq_true, beq_iff_eq, decide_eq_true_eq,
    maxChunkTotal]; omega)]
  have hnone : bufGet ([] : List (String × ChunkBuf)) mid = none := rfl
  simp only [hnone, Option.isSome_none, Bool.false_eq_true, if_false,
    chunksOf_nil_eq d t, hget, Option.getD_some, chunksOf_setPad d t [] i hi]
  by_cases hcov : coversRange t [i]
  · rw [if_pos hcov]
    have hrec := covers_received d t [i] hd hcov
    rw [if_pos (by simpa using hrec)]
    rw [chunksOf_covers d t [i] hcov]
    simp [bufDelete, bufSet]
  · rw [if_neg hcov]
    have hrec := notCovers_received d t [i] hd hcov
    rw [if_neg (by simpa using hrec)]
    simp [bufSet]

theorem runChunks_append (bufs : List (String × ChunkBuf))
    (l1 l2 : List ChunkFrame) :
    runChunks bufs (l1 ++ l2) =
      ((runChunks (runChunks bufs l1).1 l2).1,
       (runChunks bufs l1).2 ++ (runChunks (runChunks bufs l1).1 l2).2) := by
  induction l1 generalizing bufs with
  | nil => simp [runChunks]
  | cons f rest ih =>
    simp only [List.cons_append, runChunks, List.append_eq]
    rw [ih]
    simp [List.append_assoc]

theorem chunkRun_partial (mid : String) (d : Nat → String) (t : Nat)
    (ht1 : 1 ≤ t) (ht2 : t ≤ maxChunkTotal) (hd : ∀ j, j < t → d j ≠ "") :
    ∀ (rest s : List Nat),
      (∀ j ∈ rest, j < t) →
      ¬coversRange t (s ++ rest) →
      runChunks [(mid, ⟨chunksOf d t s, t⟩)]
          (rest.map (fun i => ⟨mid, i, t, d i⟩)) =
        ([(mid, ⟨chunksOf d t (s ++ rest), t⟩)], []) := by
  intro rest
  induction rest with
  | nil =>
    intro s _ _
    simp [runChunks]
  | cons i rest' ih =>
    intro s hb hnc
    simp only [List.map_cons, runChunks]
    have hi : i < t := hb i (List.mem_cons_self i rest')
    rw [processChunk_step mid d t ht1 ht2 hd s i hi]
    have hnc1 : ¬coversRange t (i :: s) := by
      intro hc
      apply hnc
      intro j hj
      rcases List.mem_cons.mp (hc j hj) with rfl | hin
      · exact List.mem_append.mpr (Or.inr (List.mem_cons_self _ _))
      · exact List.mem_append.mpr (Or.inl hin)
    rw [if_neg hnc1]
    have hnc2 : ¬coversRange t ((i :: s) ++ rest') := by
      intro hc
      apply hnc
      intro j hj
      have hjm := hc j hj
      simp only [List.cons_append, List.mem_cons, List.mem_append] at hjm ⊢
      tauto
    have hrec := ih (i :: s) (fun j hj => hb j (List.mem_cons_of_mem i hj)) hnc2
    rw [hrec]
    have hcongr : chunksOf d t ((i :: s) ++ rest') =
        chunksOf d t (s ++ i :: rest') := by
      apply chunksOf_congr
      intro j
      simp only [List.cons_append, List.mem_cons, List.mem_append]
      tauto
    rw [hcongr]
    simp

/-- C5 (amended).  Chunk reassembly: a frame whose `totalChunks` is outside
`[1, 2000]` is dropped without creating or modifying any buffer.  For a
chunked message with `totalChunks = t ∈ [1, 2000]` whose chunks carry
in-range indices and nonempty `data`: while some index is still missing
nothing is dispatched; and when the arrival whose chunk first completes the
index set `0..t-1` is processed, exactly one reassembled text is produced —
the concatenation of the per-index data in index order, regardless of
arrival order and of duplicate indices before completion — and the buffer is
deleted.  (Chunks with empty data never count as received, and a duplicate
arriving after completion starts a fresh buffer; the original claim fails
there.) -/
theorem C5_chunk_reassembly (mid : String) (t : Nat) (d : Nat → String)
    (arrivals : List Nat)
    (ht1 : 1 ≤ t) (ht2 : t ≤ maxChunkTotal)
    (hd : ∀ i, i < t → d i ≠ "")
    (hb : ∀ i ∈ arrivals, i < t) :
    (∀ (bufs : List (String × ChunkBuf)) (f : ChunkFrame),
      f.totalChunks = 0 ∨ maxChunkTotal < f.totalChunks →
      processChunk bufs f = (bufs, none)) ∧
    (¬coversRange t arrivals →
      (runChunks [] (arrivals.map (fun i => ⟨mid, i, t, d i⟩))).2 = []) ∧
    (coversRange t arrivals →
      ¬coversRange t arrivals.dropLast →
      (runChunks [] (arrivals.map (fun i => ⟨mid, i, t, d i⟩))).2 =
        [String.join ((List.range t).map d)] ∧
      (runChunks [] (arrivals.map (fun i => ⟨mid, i, t, d i⟩))).1 = []) := by
  refine ⟨?_, ?_, ?_⟩
  · intro bufs f hf
    unfold processChunk
    rw [if_pos ?hcnd]
    case hcnd =>
      rcases hf with hf | hf
      · simp [hf]
      · simp only [Bool.or_eq_true, beq_iff_eq, decide_eq_true_eq]
        right
        exact hf
  · intro hnc
    cases arrivals with
    | nil => rfl
    | cons i0 rest =>
      simp only [List.map_cons, runChunks]
      have hi0 : i0 < t := hb i0 (List.mem_cons_self i0 rest)
      rw [processChunk_create mid d t ht1 ht2 hd i0 hi0]
      have hnc0 : ¬coversRange t [i0] := by
        intro hc
        apply hnc
        intro j hj
        rcases List.mem_singleton.mp (hc j hj) with rfl
        exact List.mem_cons_self _ _
      rw [if_neg hnc0]
      have hrec := chunkRun_partial mid d t ht1 ht2 hd rest [i0]
        (fun j hj => hb j (List.mem_cons_of_mem i0 hj))
        (by simpa using hnc)
      rw [hrec]
      simp
  · intro hcov hncl
    have hne : arrivals ≠ [] := by
      intro h0
      subst h0
      exact (List.not_mem_nil 0) (hcov 0 (by omega))
    obtain ⟨init, lst, harr⟩ :
        ∃ init lst, arrivals = init ++ [lst] := by
      refine ⟨arrivals.dropLast, arrivals.getLast hne, ?_⟩
      exact (List.dropLast_append_getLast hne).symm
    have hinit : arrivals.dropLast = init := by
      rw [harr]
      simp
    subst harr
    have hlst : lst < t := hb lst (by simp)
    rw [hinit] at hncl
    have hcov' : coversRange t (lst :: init) := by
      intro j hj
      have := hcov j hj
      simp only [List.mem_append, List.mem_singleton, List.mem_cons] at this ⊢
      tauto
    cases init with
    | nil =>
      simp only [List.nil_append, List.map_cons, List.map_nil, runChunks]
      rw [processChunk_create mid d t ht1 ht2 hd lst hlst]
      rw [if_pos (by simpa using hcov')]
      simp [runChunks]
    | cons i0 midR =>
      rw [List.map_append]
      rw [runChunks_append]
      have hi0 : i0 < t := hb i0 (by simp)
      have hb' : ∀ j ∈ i0 :: midR, j < t := by
        intro j hj
        exact hb j (List.mem_append.mpr (Or.inl hj))
      have hinner : runChunks [] ((i0 :: midR).map (fun i => ⟨mid, i, t, d i⟩)) =
          ([(mid, ⟨chunksOf d t (i0 :: midR), t⟩)], []) := by
        simp only [List.map_cons, runChunks]
        rw [processChunk_create mid d t ht1 ht2 hd i0 hi0]
        have hnc0 : ¬coversRange t [i0] := by
          intro hc
          apply hncl
          intro j hj
          rcases List.mem_singleton.mp (hc j hj) with rfl
          exact List.mem_cons_self _ _
        rw [if_neg hnc0]
        have hrec := chunkRun_partial mid d t ht1 ht2 hd midR [i0]
          (fun j hj => hb' j (List.mem_cons_of_mem i0 hj))
          (by simpa using hncl)
        rw [hrec]
        simp
      rw [hinner]
      simp only [List.map_cons, List.map_nil, runChunks]
      rw [processChunk_step mid d t ht1 ht2 hd (i0 :: midR) lst hlst]
      rw [if_pos hcov']
      simp

set_option maxRecDepth 4000 in
/-- C5 witness: the three chunks of a 3-chunk message arriving in order
1, 0, 2 dispatch exactly one reassembled text, the in-order concatenation. -/
theorem C5_witness :
    (runChunks [] ([1, 0, 2].map (fun i => (⟨"m", i, 3, "x"⟩ : ChunkFrame)))).2 =
      ["xxx"] ∧
    (runChunks [] ([1, 0, 2].map (fun i => (⟨"m", i, 3, "x"⟩ : ChunkFrame)))).1 =
      [] := by
  have h := (C5_chunk_reassembly "m" 3 (fun _ => "x") [1, 0, 2] (by norm_num)
      (by decide) (fun i _ => by show "x" ≠ ""; decide) (by decide)).2.2
      (by decide) (by decide)
  exact ⟨h.1.trans (by decide), h.2⟩

theorem mapGet_mapSet_self : ∀ (m : List (String × String)) (k v : String),
    mapGet (mapSet m k v) k = some v := by
  intro m
  induction m with
  | nil => intro k v; simp [mapSet, mapGet]
  | cons a rest ih =>
    intro k v
    obtain ⟨k', v'⟩ := a
    unfold mapSet
    by_cases h : (k' == k) = true
    · rw [if_pos h]
      simp [mapGet]
    · rw [if_neg h]
      unfold mapGet
      rw [if_neg h]
      exact ih k v

theorem mapGet_mapSet_ne : ∀ (m : List (String × String)) (k v k' : String),
    k' ≠ k → mapGet (mapSet m k v) k' = mapGet m k' := by
  intro m
  induction m with
  | nil =>
    intro k v k' hk
    simp only [mapSet, mapGet]
    rw [if_neg (by simpa using fun h => hk h.symm)]
  | cons a rest ih =>
    intro k v k' hk
    obtain ⟨ka, va⟩ := a
    unfold mapSet
    by_cases h : (ka == k) = true
    · rw [if_pos h]
      have hka : ka = k := by simpa using h
      unfold mapGet
      rw [if_neg (by simpa using fun h' => hk h'.symm),
        if_neg (by rw [hka]; simpa using fun h' => hk h'.symm)]
    · rw [if_neg h]
      unfold mapGet
      by_cases h' : (ka == k') = true
      · rw [if_pos h', if_pos h']
      · rw [if_neg h', if_neg h']
        exact ih k v k' hk

theorem findIdx?_set_of_pred {α : Type} (p : α → Bool) (e' : α) (hp : p e' = true) :
    ∀ (l : List α) (i : Nat), l.findIdx? p = some i →
      (l.set i e').findIdx? p = some i := by
  intro l
  induction l with
  | nil => intro i h; simp at h
  | cons a rest ih =>
    intro i h
    rw [List.findIdx?_cons] at h
    by_cases ha : p a = true
    · rw [if_pos ha] at h
      have h0 : i = 0 := by
        injection h with h'
        omega
      subst h0
      simp only [List.set_cons_zero]
      rw [List.findIdx?_cons, if_pos hp]
    · rw [if_neg ha, List.findIdx?_start_succ] at h
      obtain ⟨j, hj, hji⟩ := Option.map_eq_some'.mp h
      subst hji
      simp only [List.set_cons_succ]
      rw [List.findIdx?_cons, if_neg ha, List.findIdx?_start_succ, ih j hj]
      rfl

theorem findIdx?_push_of_pred {α : Type} (p : α → Bool) (e' : α)
    (hp : p e' = true) (l : List α) (h : l.findIdx? p = none) :
    (l ++ [e']).findIdx? p = some l.length := by
  rw [List.findIdx?_append, h]
  simp [List.findIdx?_cons, hp]

theorem updateLocal_hit (st : StatusState) (h s t v now : String)
    (hc : mapGet st.lastValues (statusKey h s t) = some v) :
    updateLocalStatusAndBroadcast st h s t v now = (st, []) := by
  unfold updateLocalStatusAndBroadcast
  rw [if_pos (by simpa using hc)]

theorem updateLocal_miss (st : StatusState) (h s t v now : String)
    (hcons : consistentAtKey st h s t)
    (hne : mapGet st.lastValues (statusKey h s t) ≠ some v) :
    (updateLocalStatusAndBroadcast st h s t v now).2 =
      [{ host := h, status_source := s, status_type := t,
         status_value := v, sys_time := now }] ∧
    mapGet (updateLocalStatusAndBroadcast st h s t v now).1.lastValues
      (statusKey h s t) = some v ∧
    consistentAtKey (updateLocalStatusAndBroadcast st h s t v now).1 h s t := by
  unfold consistentAtKey at hcons
  cases hval : mapGet st.lastValues (statusKey h s t) with
  | none =>
    rw [hval] at hcons
    unfold updateLocalStatusAndBroadcast
    rw [if_neg (by simp [hval])]
    rw [hcons]
    refine ⟨rfl, mapGet_mapSet_self _ _ _, ?_⟩
    unfold consistentAtKey
    rw [mapGet_mapSet_self]
    refine ⟨st.statusData.length, now, ?_, ?_⟩
    · exact findIdx?_push_of_pred _ _ (by simp) _ hcons
    · rw [List.get?_eq_getElem?]
      exact List.getElem?_concat_length _ _
  | some c =>
    rw [hval] at hcons
    obtain ⟨i, now0, hfi, hget⟩ := hcons
    have hcv : c ≠ v := fun hcv => hne (by rw [hval, hcv])
    unfold updateLocalStatusAndBroadcast
    rw [if_neg (by simp [hval, hcv])]
    rw [hfi]
    have hgd : ((st.statusData[i]?).getD
        { host := h, status_source := s, status_type := t,
          status_value := v, sys_time := now }).status_value = c := by
      rw [← List.get?_eq_getElem?, hget]
      rfl
    simp only []
    rw [if_pos (by simp [hgd, hcv])]
    refine ⟨rfl, mapGet_mapSet_self _ _ _, ?_⟩
    unfold consistentAtKey
    rw [mapGet_mapSet_self]
    refine ⟨i, now, ?_, ?_⟩
    · exact findIdx?_set_of_pred _ _ (by simp) _ i hfi
    · have hlt : i < st.statusData.length :=
        (List.findIdx?_eq_some_iff_findIdx_eq.mp hfi).1
      rw [List.get?_eq_getElem?]
      simp [List.getElem?_set_self hlt]

theorem runKeyUpdates_count (h s t : String) :
    ∀ (updates : List (String × String)) (st : StatusState),
      consistentAtKey st h s t →
      (runKeyUpdates h s t st updates).2 =
        valueChanges (mapGet st.lastValues (statusKey h s t))
          (updates.map Prod.fst) := by
  intro updates
  induction updates with
  | nil => intro st _; rfl
  | cons u rest ih =>
    obtain ⟨v, now⟩ := u
    intro st hcons
    simp only [runKeyUpdates, List.map_cons, valueChanges]
    by_cases hv : mapGet st.lastValues (statusKey h s t) = some v
    · rw [updateLocal_hit st h s t v now hv]
      simp only [List.length_nil]
      rw [ih st hcons, hv]
      simp
    · obtain ⟨hbr, hcache, hcons'⟩ := updateLocal_miss st h s t v now hcons hv
      simp only [hbr, List.length_cons, List.length_nil]
      rw [ih _ hcons', hcache]
      simp [hv]

/-- C2 (amended).  Dedupe at a fixed key, from a state consistent at that key
(the cache entry and the first matching snapshot entry exist together with
equal values — e.g. a fresh key): an update whose string-normalized value
equals the cached value produces no broadcast and changes nothing; any other
update replaces the cached value, stamps the new `sys_time`, produces exactly
one broadcast carrying the new value, and preserves consistency.  Hence from
the empty initial state the number of broadcasts over any update sequence
equals the number of value changes (consecutive duplicates suppressed). -/
theorem C2_dedupe (h s t : String) :
    (∀ (st : StatusState) (v now : String), consistentAtKey st h s t →
      (mapGet st.lastValues (statusKey h s t) = some v →
        updateLocalStatusAndBroadcast st h s t v now = (st, [])) ∧
      (mapGet st.lastValues (statusKey h s t) ≠ some v →
        (updateLocalStatusAndBroadcast st h s t v now).2 =
          [{ host := h, status_source := s, status_type := t,
             status_value := v, sys_time := now }] ∧
        mapGet (updateLocalStatusAndBroadcast st h s t v now).1.lastValues
          (statusKey h s t) = some v ∧
        consistentAtKey (updateLocalStatusAndBroadcast st h s t v now).1 h s t)) ∧
    (∀ updates : List (String × String),
      (runKeyUpdates h s t ⟨[], []⟩ updates).2 =
        valueChanges none (updates.map Prod.fst)) := by
  constructor
  · intro st v now hcons
    exact ⟨fun hv => updateLocal_hit st h s t v now hv,
           fun hv => updateLocal_miss st h s t v now hcons hv⟩
  · intro updates
    have h0 : consistentAtKey ⟨[], []⟩ h s t := rfl
    rw [runKeyUpdates_count h s t updates ⟨[], []⟩ h0]
    rfl

/-- C2 witness: a duplicate update is dropped at a concrete consistent state,
and a concrete three-update sequence with one duplicate broadcasts twice. -/
theorem C2_witness :
    updateLocalStatusAndBroadcast
        ⟨[⟨"h", "ess", "subject", "a", "t0"⟩],
         [(statusKey "h" "ess" "subject", "a")]⟩
        "h" "ess" "subject" "a" "t1" =
      (⟨[⟨"h", "ess", "subject", "a", "t0"⟩],
        [(statusKey "h" "ess" "subject", "a")]⟩, []) ∧
    (runKeyUpdates "h" "ess" "subject" ⟨[], []⟩
        [("sally", "t1"), ("sally", "t2"), ("joe", "t3")]).2 = 2 := by
  have hc : consistentAtKey
      ⟨[⟨"h", "ess", "subject", "a", "t0"⟩],
       [(statusKey "h" "ess" "subject", "a")]⟩ "h" "ess" "subject" :=
    ⟨0, "t0", rfl, rfl⟩
  refine ⟨((C2_dedupe "h" "ess" "subject").1 _ "a" "t1" hc).1 (by decide), ?_⟩
  exact ((C2_dedupe "h" "ess" "subject").2
    [("sally", "t1"), ("sally", "t2"), ("joe", "t3")]).trans (by decide)

theorem sepSplit_inj : ∀ a b x y : List Char, '|' ∉ a → '|' ∉ b →
    a ++ '|' :: x = b ++ '|' :: y → a = b ∧ x = y := by
  intro a
  induction a with
  | nil =>
    intro b x y _ hb h
    cases b with
    | nil => simpa using h
    | cons c bs =>
      simp only [List.nil_append, List.cons_append, List.cons.injEq] at h
      exact absurd (h.1 ▸ List.mem_cons_self c bs) hb
  | cons c as ih =>
    intro b x y ha hb h
    cases b with
    | nil =>
      simp only [List.cons_append, List.nil_append, List.cons.injEq] at h
      exact absurd (h.1.symm ▸ List.mem_cons_self c as) ha
    | cons cb bs =>
      simp only [List.cons_append, List.cons.injEq] at h
      have hrec := ih bs x y (fun hm => ha (List.mem_cons_of_mem c hm))
        (fun hm => hb (List.mem_cons_of_mem cb hm)) h.2
      exact ⟨by rw [h.1, hrec.1], hrec.2⟩

theorem statusKey_inj {h s t h' s' t' : String}
    (hh : barFree h) (hs : barFree s) (ht : barFree t)
    (hh' : barFree h') (hs' : barFree s') (ht' : barFree t')
    (he : statusKey h s t = statusKey h' s' t') : h = h' ∧ s = s' ∧ t = t' := by
  have hd : h.data ++ '|' :: (s.data ++ '|' :: t.data) =
      h'.data ++ '|' :: (s'.data ++ '|' :: t'.data) := by
    have hc := congrArg String.data he
    simpa [statusKey, String.data_append] using hc
  obtain ⟨h1, hrest⟩ := sepSplit_inj h.data h'.data _ _ hh hh' hd
  obtain ⟨h2, h3⟩ := sepSplit_inj s.data s'.data _ _ hs hs' hrest
  refine ⟨?_, ?_, ?_⟩
  · cases h; cases h'; exact congrArg String.mk h1
  · cases s; cases s'; exact congrArg String.mk h2
  · cases t; cases t'; exact congrArg String.mk h3

theorem updateLocal_preserves (st : StatusState) (h s t v now : String)
    (hbh : barFree h) (hbs : barFree s) (hbt : barFree t)
    (hu : uniquePerKey st.statusData) (hca : cacheAgrees st)
    (hbf : entriesBarFree st.statusData) :
    uniquePerKey (updateLocalStatusAndBroadcast st h s t v now).1.statusData ∧
    cacheAgrees (updateLocalStatusAndBroadcast st h s t v now).1 ∧
    entriesBarFree (updateLocalStatusAndBroadcast st h s t v now).1.statusData := by
  by_cases hhit : mapGet st.lastValues (statusKey h s t) = some v
  · rw [updateLocal_hit st h s t v now hhit]
    exact ⟨hu, hca, hbf⟩
  · unfold updateLocalStatusAndBroadcast
    rw [if_neg (by simpa using hhit)]
    cases hfi : st.statusData.findIdx?
        (fun e => e.host == h && e.status_type == t && e.status_source == s) with
    | none =>
      simp only []
      have hnp := List.findIdx?_eq_none_iff.mp hfi
      refine ⟨?_, ?_, ?_⟩
      · unfold uniquePerKey at hu ⊢
        rw [List.pairwise_append]
        refine ⟨hu, List.pairwise_singleton _ _, ?_⟩
        intro a ha b hb
        rw [List.mem_singleton] at hb
        subst hb
        intro hcon
        have hpa : (a.host == h && a.status_type == t && a.status_source == s) = true := by
          simp only [Bool.and_eq_true, beq_iff_eq]
          exact ⟨⟨hcon.1, hcon.2.2⟩, hcon.2.1⟩
        rw [hnp a ha] at hpa
        cases hpa
      · intro e he
        rcases List.mem_append.mp he with hold | hnew
        · by_cases hk : statusKey e.host e.status_source e.status_type =
              statusKey h s t
          · obtain ⟨e1, e2, e3⟩ := statusKey_inj (hbf e hold).1 (hbf e hold).2.1
              (hbf e hold).2.2 hbh hbs hbt hk
            have hpe : (e.host == h && e.status_type == t && e.status_source == s) =
                true := by
              simp [e1, e2, e3]
            rw [hnp e hold] at hpe
            cases hpe
          · rw [mapGet_mapSet_ne _ _ _ _ hk]
            exact hca e hold
        · rw [List.mem_singleton] at hnew
          subst hnew
          exact mapGet_mapSet_self _ _ _
      · intro e he
        rcases List.mem_append.mp he with hold | hnew
        · exact hbf e hold
        · rw [List.mem_singleton] at hnew
          subst hnew
          exact ⟨hbh, hbs, hbt⟩
    | some i =>
      obtain ⟨hlen, hpe, _⟩ := List.findIdx?_eq_some_iff_getElem.mp hfi
      have htr : (st.statusData[i]).host = h ∧
          (st.statusData[i]).status_type = t ∧
          (st.statusData[i]).status_source = s := by
        simp only [Bool.and_eq_true, beq_iff_eq] at hpe
        exact ⟨hpe.1.1, hpe.1.2, hpe.2⟩
      have hmem : st.statusData[i] ∈ st.statusData := List.getElem_mem hlen
      have hval := hca _ hmem
      rw [htr.1, htr.2.2, htr.2.1] at hval
      have hvv : (st.statusData[i]).status_value ≠ v := fun hq =>
        hhit (by rw [hval, hq])
      have hgd : ((st.statusData[i]?).getD
          { host := h, status_source := s, status_type := t,
            status_value := v, sys_time := now }).status_value =
          (st.statusData[i]).status_value := by
        rw [List.getElem?_eq_getElem hlen]
        rfl
      simp only []
      rw [if_pos (by simp [hgd, hvv])]
      refine ⟨?_, ?_, ?_⟩
      · unfold uniquePerKey at hu ⊢
        rw [List.pairwise_iff_getElem] at hu ⊢
        intro j k hj hk hjk
        have hj' : j < st.statusData.length := by simpa using hj
        have hk' : k < st.statusData.length := by simpa using hk
        simp only [List.getElem_set]
        by_cases hji : i = j <;> by_cases hki : i = k
        · omega
        · subst hji
          rw [if_pos rfl, if_neg hki]
          intro hcon
          exact hu i k hj' hk' hjk
            ⟨htr.1.trans hcon.1, htr.2.2.trans hcon.2.1, htr.2.1.trans hcon.2.2⟩
        · subst hki
          rw [if_neg hji, if_pos rfl]
          intro hcon
          exact hu j i hj' hk' hjk
            ⟨hcon.1.trans htr.1.symm, hcon.2.1.trans htr.2.2.symm,
             hcon.2.2.trans htr.2.1.symm⟩
        · rw [if_neg hji, if_neg hki]
          exact hu j k hj' hk' hjk
      · intro e he
        obtain ⟨n, hn, hne⟩ := List.mem_iff_getElem.mp he
        have hn' : n < st.statusData.length := by simpa using hn
        simp only [List.getElem_set] at hne
        by_cases hni : i = n
        · rw [if_pos hni] at hne
          subst hne
          exact mapGet_mapSet_self _ _ _
        · rw [if_neg hni] at hne
          have hmemn : e ∈ st.statusData := hne ▸ List.getElem_mem hn'
          by_cases hk : statusKey e.host e.status_source e.status_type =
              statusKey h s t
          · exfalso
            obtain ⟨e1, e2, e3⟩ := statusKey_inj (hbf e hmemn).1 (hbf e hmemn).2.1
              (hbf e hmemn).2.2 hbh hbs hbt hk
            unfold uniquePerKey at hu
            rw [List.pairwise_iff_getElem] at hu
            rcases Nat.lt_or_ge n i with hni' | hni'
            · exact hu n i hn' hlen hni'
                ⟨by rw [hne, e1, htr.1], by rw [hne, e2, htr.2.2],
                 by rw [hne, e3, htr.2.1]⟩
            · have hni'' : i < n := by omega
              exact hu i n hlen hn' hni''
                ⟨by rw [hne, e1, htr.1], by rw [hne, e2, htr.2.2],
                 by rw [hne, e3, htr.2.1]⟩
          · rw [mapGet_mapSet_ne _ _ _ _ hk]
            exact hca e hmemn
      · intro e he
        rcases List.mem_or_eq_of_mem_set he with hold | hnew
        · exact hbf e hold
        · subst hnew
          exact ⟨hbh, hbs, hbt⟩

/-- C1 (amended).  Snapshot consistency holds for the Homebase-Link path
alone: after any sequence of accepted updates through
`updateLocalStatusAndBroadcast` (from an empty snapshot and cache, with
`|`-free key components), `statusData` holds exactly one entry per
`(host, source, type)` and each entry's value equals the cached last value.
The `status_changes`-notification path does not preserve this: it matches on
`(host, type)` only and never touches the cache (see the counterexample). -/
theorem C1_snapshot_consistency_link_only
    (ups : List (String × String × String × String × String))
    (hbar : ∀ u ∈ ups, barFree u.1 ∧ barFree u.2.1 ∧ barFree u.2.2.1) :
    uniquePerKey (runLinkUpdates ⟨[], []⟩ ups).statusData ∧
    cacheAgrees (runLinkUpdates ⟨[], []⟩ ups) := by
  suffices hgen : ∀ (l : List (String × String × String × String × String))
      (st : StatusState),
      (∀ u ∈ l, barFree u.1 ∧ barFree u.2.1 ∧ barFree u.2.2.1) →
      uniquePerKey st.statusData → cacheAgrees st →
      entriesBarFree st.statusData →
      uniquePerKey (runLinkUpdates st l).statusData ∧
      cacheAgrees (runLinkUpdates st l) ∧
      entriesBarFree (runLinkUpdates st l).statusData by
    have hres := hgen ups ⟨[], []⟩ hbar List.Pairwise.nil
      (fun e he => absurd he (List.not_mem_nil e))
      (fun e he => absurd he (List.not_mem_nil e))
    exact ⟨hres.1, hres.2.1⟩
  intro l
  induction l with
  | nil => intro st _ h1 h2 h3; exact ⟨h1, h2, h3⟩
  | cons u rest ih =>
    obtain ⟨h, s, t, v, now⟩ := u
    intro st hb h1 h2 h3
    have hbu := hb (h, s, t, v, now) (List.mem_cons_self _ _)
    have hstep := updateLocal_preserves st h s t v now
      hbu.1 hbu.2.1 hbu.2.2 h1 h2 h3
    exact ih _ (fun u hu' => hb u (List.mem_cons_of_mem _ hu'))
      hstep.1 hstep.2.1 hstep.2.2

/-- C1 witness: a concrete Link-update sequence (with one duplicate and two
keys) ends with a unique-per-key snapshot agreeing with the cache. -/
theorem C1_witness :
    uniquePerKey (runLinkUpdates ⟨[], []⟩
      [("10.0.0.1", "ess", "subject", "sally", "t1"),
       ("10.0.0.1", "ess", "subject", "sally", "t2"),
       ("10.0.0.1", "git", "branch", "main", "t3")]).statusData ∧
    cacheAgrees (runLinkUpdates ⟨[], []⟩
      [("10.0.0.1", "ess", "subject", "sally", "t1"),
       ("10.0.0.1", "ess", "subject", "sally", "t2"),
       ("10.0.0.1", "git", "branch", "main", "t3")]) :=
  C1_snapshot_consistency_link_only
    [("10.0.0.1", "ess", "subject", "sally", "t1"),
     ("10.0.0.1", "ess", "subject", "sally", "t2"),
     ("10.0.0.1", "git", "branch", "main", "t3")] (by decide)
